import Mathlib

/-!
# aws-lambda-deployer: the canary controller of `cmd/ald/main.go`

The controller keeps one mutable number, `currentNewVersionPct`, a Go `float64`.
Its control flow compares and adds such numbers, so the development starts with
an executable model of IEEE 754 binary64 (sign, biased exponent, fraction; addition
and subtraction rounded to nearest, ties to even; ordered comparison false on NaN),
then embeds `NewFunction`, `adjustTrafficSplit`, `promoteNewVersion`, `deploy`
and `main` over it by explicit state passing.

What lies outside the program is a parameter of the embedding:
* the Lambda service is a `Client`, which says for each `UpdateAlias` request, by its
  position in the run and its input, whether it fails; the requests sent are recorded
  in `World.calls`;
* the `select` of the deploy loop is a list of the cases it takes, one per iteration,
  so a cancellation is an entry `ctxDone` and a run that has used up the list is still
  waiting in the loop;
* `config.LoadDefaultConfig` is its outcome, and flag parsing is the parsed values.

Finite `float64` values are handled through their exact value in units of `2^-1074`,
an integer, which makes the sum of two values an integer sum followed by one rounding.
A NaN result is always the same quiet NaN; the program never looks at a payload.
-/

namespace Ald

/-! ## IEEE 754 binary64 -/

/-- A Go `float64`: sign bit, 11-bit biased exponent, 52-bit fraction. -/
structure F64 where
  sign : Bool
  expo : Fin 2048
  frac : Fin 4503599627370496
deriving DecidableEq, Repr

namespace F64

/-- The value with the given 64-bit pattern (`math.Float64frombits`). -/
def ofBits (b : Nat) : F64 :=
  ⟨decide (b / 2 ^ 63 % 2 = 1), Fin.ofNat (b / 2 ^ 52), Fin.ofNat b⟩

/-- The 64-bit pattern of a value (`math.Float64bits`). -/
def toBits (x : F64) : Nat :=
  (if x.sign then 2 ^ 63 else 0) + x.expo.val * 2 ^ 52 + x.frac.val

/-- Exponent field all ones and a nonzero fraction. -/
def isNaN (x : F64) : Bool := decide (x.expo.val = 2047) && decide (x.frac.val ≠ 0)

/-- Exponent field all ones and a zero fraction. -/
def isInf (x : F64) : Bool := decide (x.expo.val = 2047) && decide (x.frac.val = 0)

/-- Magnitude in units of `2^-1074` (the smallest subnormal). An infinity gets
`2^2098`, which is `2^1024` in these units and lies above every finite magnitude. -/
def mag (x : F64) : Nat :=
  if x.expo.val = 0 then x.frac.val else (2 ^ 52 + x.frac.val) <<< (x.expo.val - 1)

/-- Signed value in units of `2^-1074` (meaningful when `x` is not a NaN). -/
def toInt (x : F64) : Int := if x.sign then -(x.mag : Int) else (x.mag : Int)

/-- The quiet NaN `0x7FF8000000000000`. -/
def nan : F64 := ⟨false, 2047, 2251799813685248⟩

/-- Plus or minus infinity. -/
def inf (neg : Bool) : F64 := ⟨neg, 2047, 0⟩

/-- The Go constant `0` as a `float64`, `+0`. -/
def zero : F64 := ⟨false, 0, 0⟩

/-- The Go constant `1` as a `float64`, `0x3FF0000000000000`. -/
def one : F64 := ⟨false, 1023, 0⟩

/-- Go unary minus: the sign bit flipped. -/
def neg (x : F64) : F64 := { x with sign := !x.sign }

/-- Binary search for the leading one bit: `m` is what is left of the number after
dropping `k` low bits; level `j + 1` tries to drop `2^j` more. -/
def log2Aux : Nat → Nat → Nat → Nat
  | 0, _, k => k
  | j + 1, m, k =>
    if m >>> 2 ^ j = 0 then log2Aux j m k else log2Aux j (m >>> 2 ^ j) (k + 2 ^ j)

/-- Index of the leading one bit of `n` (floor of the binary logarithm), for
`0 < n < 2^4096`; every magnitude a sum of two binary64 values can have is in range. -/
def log2 (n : Nat) : Nat := log2Aux 12 n 0

/-- Round a magnitude (units of `2^-1074`) to 53 significant bits, nearest, ties to
even, with the exponent unbounded above. Magnitudes below `2^53` are exact. -/
def roundMag (n : Nat) : Nat :=
  if n < 2 ^ 53 then n
  else
    let sh := log2 n - 52
    let q := n >>> sh
    let r := n % (1 <<< sh)
    let half := 1 <<< (sh - 1)
    if half < r ∨ (r = half ∧ q % 2 = 1) then (q + 1) <<< sh else q <<< sh

/-- The float with the given sign nearest to magnitude `n`; overflow gives infinity. -/
def ofMag (sign : Bool) (n : Nat) : F64 :=
  let m := roundMag n
  if m < 2 ^ 52 then ⟨sign, 0, Fin.ofNat m⟩
  else
    let e := log2 m - 52
    if 2046 ≤ e then inf sign else ⟨sign, Fin.ofNat (e + 1), Fin.ofNat (m >>> e - 2 ^ 52)⟩

/-- Go `x + y` on `float64`: NaN in, NaN out; infinities of opposite sign give NaN;
otherwise the exact sum rounded to nearest, ties to even, an exact zero sum being `-0`
only when both operands are negative (zeros). -/
def add (x y : F64) : F64 :=
  if x.isNaN || y.isNaN then nan
  else if x.isInf then (if y.isInf && (x.sign != y.sign) then nan else x)
  else if y.isInf then y
  else
    let v := x.toInt + y.toInt
    if v = 0 then ⟨x.sign && y.sign, 0, 0⟩ else ofMag (decide (v < 0)) v.natAbs

/-- Go `x - y` on `float64`, which is `x + (-y)`. -/
def sub (x y : F64) : F64 := add x (neg y)

/-- Go `x <= y` on `float64`: false when either side is a NaN. -/
def le (x y : F64) : Bool := !x.isNaN && !y.isNaN && decide (x.toInt ≤ y.toInt)

/-- Go `x < y` on `float64`. -/
def lt (x y : F64) : Bool := !x.isNaN && !y.isNaN && decide (x.toInt < y.toInt)

/-- Go `x >= y` on `float64`. -/
def ge (x y : F64) : Bool := le y x

/-- A magnitude that fits 53 significant bits. -/
def Rep (d : Nat) : Prop := ∃ M e : Nat, M < 2 ^ 53 ∧ d = M * 2 ^ e

/-- The `float64` the Go literal `0.1` denotes (the default of the `-step` flag),
`0x3FB999999999999A`, a little above one tenth. -/
def tenth : F64 := ofBits 0x3FB999999999999A

/-- The `float64` of `0.25`, exact. -/
def quarter : F64 := ofBits 0x3FD0000000000000

/-- The `float64` of `-0.5`, exact. -/
def negHalf : F64 := ofBits 0xBFE0000000000000

/-- The `float64` of `-0.1`, `0xBFB999999999999A`. -/
def negTenth : F64 := ofBits 0xBFB999999999999A

end F64

/-! ## The controller -/

/-- A Go `error`, identified by its message. -/
abbrev Error := String

/-- Lambda `types.AliasRoutingConfiguration`; the Go map is an association list and
the nil map of the zero value is the empty list. -/
structure AliasRoutingConfiguration where
  AdditionalVersionWeights : List (String × F64)
deriving DecidableEq, Repr

/-- Lambda `UpdateAliasInput`, with the fields the program sets; a field left out
of the Go literal is nil, here `none`. -/
structure UpdateAliasInput where
  FunctionName : Option String
  Name : Option String
  FunctionVersion : Option String
  RoutingConfig : Option AliasRoutingConfiguration
deriving DecidableEq, Repr

/-- The Lambda client seen from the program: whether the request numbered `i`
(counting from 0) with the given input fails, and with which error. -/
abbrev Client := Nat → UpdateAliasInput → Option Error

/-- Everything outside the controller that the program acts on: the `UpdateAlias`
requests sent so far, oldest first, and the values printed by `fmt.Printf`. -/
structure World where
  calls : List UpdateAliasInput
  stdout : List F64
deriving DecidableEq, Repr

/-- Go `type function struct`. -/
structure function where
  awsClient : Client
  arn : String
  aliasName : String
  currentNewVersionPct : F64
  newVersion : String
  step : F64

/-- The call `awsClient.UpdateAlias(ctx, input)`: the request is recorded and the
client decides its outcome (`none` is a nil error). -/
def UpdateAlias (c : Client) (input : UpdateAliasInput) (w : World) : Option Error × World :=
  (c w.calls.length input, { w with calls := w.calls ++ [input] })

/-- Go `NewFunction`; `cfg` is the outcome of `config.LoadDefaultConfig`, carrying
the client `lambda.NewFromConfig` makes of the loaded configuration. -/
def NewFunction (cfg : Except Error Client) (arn aliasName newVersion : String) (step : F64) :
    Except Error function :=
  match cfg with
  | .error err => .error err
  | .ok client =>
    .ok { awsClient := client
          arn := arn
          aliasName := aliasName
          currentNewVersionPct := F64.zero
          newVersion := newVersion
          step := step }

/-- Go `(*function).adjustTrafficSplit`. -/
def adjustTrafficSplit (f : function) (w : World) : Option Error × function × World :=
  match UpdateAlias f.awsClient
      { FunctionName := some f.arn
        Name := some f.aliasName
        FunctionVersion := none
        RoutingConfig := some
          { AdditionalVersionWeights :=
              [(f.newVersion, F64.add f.currentNewVersionPct f.step)] } } w with
  | (some err, w1) => (some err, f, w1)
  | (none, w1) =>
    (none, { f with currentNewVersionPct := F64.add f.currentNewVersionPct f.step }, w1)

/-- Go `(*function).promoteNewVersion`. -/
def promoteNewVersion (f : function) (w : World) : Option Error × function × World :=
  match UpdateAlias f.awsClient
      { FunctionName := some f.arn
        Name := some f.aliasName
        FunctionVersion := some f.newVersion
        RoutingConfig := some { AdditionalVersionWeights := [] } } w with
  | (some err, w1) => (some err, f, w1)
  | (none, w1) => (none, f, w1)

/-- Which case the `select` of the deploy loop takes at one iteration. -/
inductive Select where
  | ctxDone
  | tickerC
deriving DecidableEq, Repr

/-- How far `deploy` got: still in its loop waiting on the `select`, or returned. -/
inductive Outcome where
  | waiting
  | returned (err : Option Error)
deriving DecidableEq, Repr

/-- Go `(*function).deploy`. The list gives, iteration by iteration, the case the
`select` takes; when it runs out the loop is still waiting. -/
def deploy : List Select → function → World → Outcome × function × World
  | [], f, w => (.waiting, f, w)
  | .ctxDone :: _, f, w => (.returned (some "context cancelled"), f, w)
  | .tickerC :: rest, f, w =>
    if F64.ge f.currentNewVersionPct (F64.sub F64.one f.step) then
      match promoteNewVersion f w with
      | (some err, f1, w1) => (.returned (some err), f1, w1)
      | (none, f1, w1) => (.returned none, f1, w1)
    else
      match adjustTrafficSplit f w with
      | (some err, f1, w1) => (.returned (some err), f1, w1)
      | (none, f1, w1) =>
        deploy rest f1 { w1 with stdout := w1.stdout ++ [f1.currentNewVersionPct] }

/-- How far `main` got. -/
inductive Exit where
  | panicked (err : Error)
  | exited
  | running
deriving DecidableEq, Repr

/-- Go `main`, from the parsed flag values on. `context.Background()` is never
done, so every iteration of the deploy loop takes the ticker case; `ticks` is how
many ticks have been delivered. -/
def main (cfg : Except Error Client) (arn aliasName target : String) (step : F64) (ticks : Nat) :
    Exit × World :=
  match NewFunction cfg arn aliasName target step with
  | .error err => (.panicked err, ⟨[], []⟩)
  | .ok f =>
    match deploy (List.replicate ticks .tickerC) f ⟨[], []⟩ with
    | (.returned (some err), _, w) => (.panicked err, w)
    | (.returned none, _, w) => (.exited, w)
    | (.waiting, _, w) => (.running, w)

/-! ## Vocabulary for stating the properties -/

/-- A client every request of which succeeds. -/
def okClient : Client := fun _ _ => none

/-- A client whose request number `k` (counting from 0) fails with `err` and whose
other requests succeed. -/
def failAt (k : Nat) (err : Error) : Client := fun i _ => if i = k then some err else none

/-- The partial-split request `adjustTrafficSplit` builds when the sum
`currentNewVersionPct + step` is `weight`. -/
def splitInput (f : function) (weight : F64) : UpdateAliasInput :=
  { FunctionName := some f.arn
    Name := some f.aliasName
    FunctionVersion := none
    RoutingConfig := some { AdditionalVersionWeights := [(f.newVersion, weight)] } }

/-- The full-cutover request `promoteNewVersion` builds. -/
def cutoverInput (f : function) : UpdateAliasInput :=
  { FunctionName := some f.arn
    Name := some f.aliasName
    FunctionVersion := some f.newVersion
    RoutingConfig := some { AdditionalVersionWeights := [] } }

/-- A freshly built controller with step 0.25 whose requests all succeed. -/
def quarterController : function := ⟨okClient, "arn", "live", F64.zero, "2", F64.quarter⟩

/-- A freshly built controller with step 0.1 whose third request fails. -/
def faultyController : function :=
  ⟨failAt 2 "Throttled", "arn", "live", F64.zero, "2", F64.tenth⟩

/-- The value of `currentNewVersionPct` after `n` successful ramp steps from 0:
`step` added `n` times, each sum rounded as `float64` addition rounds. -/
def rampShare (step : F64) : Nat → F64
  | 0 => F64.zero
  | n + 1 => F64.add (rampShare step n) step

/-- The values `currentNewVersionPct` takes over `n` further successful ramp steps
once `m` have been made: those after `m + 1`, ..., `m + n` steps, in order. -/
def rampList (step : F64) : Nat → Nat → List F64
  | _, 0 => []
  | m, n + 1 => rampShare step (m + 1) :: rampList step (m + 1) n

/-! ## Facts about the binary64 model -/

namespace F64

theorem log2Aux_spec (n : Nat) : ∀ (j m k : Nat), m = n >>> k → m < 2 ^ 2 ^ j → m ≠ 0 →
    n >>> log2Aux j m k = 1 := by
  intro j
  induction j with
  | zero =>
    intro m k h1 h2 h3
    rw [log2Aux, ← h1]
    have h4 : (2:Nat) ^ 2 ^ 0 = 2 := rfl
    rw [h4] at h2
    omega
  | succ j ih =>
    intro m k h1 h2 h3
    rw [log2Aux]
    by_cases h : m >>> 2 ^ j = 0
    · rw [if_pos h]
      apply ih m k h1 _ h3
      rw [Nat.shiftRight_eq_div_pow] at h
      by_contra hc
      have := Nat.div_pos (Nat.le_of_not_lt hc) (Nat.pow_pos (n := 2 ^ j) (by decide : 0 < 2))
      omega
    · rw [if_neg h]
      apply ih _ _ _ _ h
      · rw [h1, Nat.shiftRight_add]
      · rw [Nat.shiftRight_eq_div_pow]
        apply Nat.div_lt_of_lt_mul
        rw [← pow_add, ← two_mul, ← pow_succ']
        exact h2

theorem log2_shift (n : Nat) (h0 : n ≠ 0) (hn : n < 2 ^ 4096) : n >>> log2 n = 1 := by
  have h12 : (4096 : Nat) = 2 ^ 12 := by norm_num
  rw [h12] at hn
  exact log2Aux_spec n 12 n 0 rfl hn h0

theorem log2_le (n : Nat) (h0 : n ≠ 0) (hn : n < 2 ^ 4096) : 2 ^ log2 n ≤ n := by
  have h := log2_shift n h0 hn
  rw [Nat.shiftRight_eq_div_pow] at h
  have := Nat.div_mul_le_self n (2 ^ log2 n)
  rw [h] at this
  omega

theorem lt_log2 (n : Nat) (h0 : n ≠ 0) (hn : n < 2 ^ 4096) : n < 2 ^ (log2 n + 1) := by
  have h := log2_shift n h0 hn
  rw [Nat.shiftRight_eq_div_pow] at h
  have := Nat.lt_succ_self (n / 2 ^ log2 n)
  have h2 : n < (n / 2 ^ log2 n + 1) * 2 ^ log2 n := by
    have := Nat.lt_div_mul_add (a := n) (b := 2 ^ log2 n) (Nat.pow_pos (by decide))
    linarith
  rw [h] at h2
  rw [pow_succ]
  omega

theorem rep_grid (d k : Nat) (hd : Rep d) (hk : 2 ^ k ≤ d) : 2 ^ (k - 52) ∣ d := by
  obtain ⟨M, e, hM, rfl⟩ := hd
  have h1 : 2 ^ k < 2 ^ (53 + e) := by
    calc 2 ^ k ≤ M * 2 ^ e := hk
      _ < 2 ^ 53 * 2 ^ e := Nat.mul_lt_mul_of_pos_right hM (Nat.pow_pos (by decide))
      _ = 2 ^ (53 + e) := (pow_add 2 53 e).symm
  have h2 : k < 53 + e := (Nat.pow_lt_pow_iff_right (by decide : 1 < 2)).1 h1
  exact Dvd.dvd.mul_left (pow_dvd_pow 2 (by omega)) M

theorem roundMag_cases (n : Nat) (h : ¬ n < 2 ^ 53) :
    roundMag n = n / 2 ^ (log2 n - 52) * 2 ^ (log2 n - 52) ∨
    (roundMag n = (n / 2 ^ (log2 n - 52) + 1) * 2 ^ (log2 n - 52) ∧
      0 < n % 2 ^ (log2 n - 52)) := by
  unfold roundMag
  rw [if_neg h]
  simp only [Nat.shiftLeft_eq, Nat.shiftRight_eq_div_pow, Nat.one_mul]
  split
  · rename_i hc
    right
    refine ⟨rfl, ?_⟩
    have hp : 0 < 2 ^ (log2 n - 52 - 1) := Nat.pow_pos (by decide)
    rcases hc with hc | ⟨hc, _⟩ <;> omega
  · left; rfl

theorem grid_floor (d n P : Nat) (hP : 0 < P) (hd : P ∣ d) (h : d ≤ n) : d ≤ n / P * P := by
  obtain ⟨j, rfl⟩ := hd
  have h1 : j ≤ n / P := (Nat.le_div_iff_mul_le hP).2 (by rw [Nat.mul_comm]; exact h)
  calc P * j = j * P := Nat.mul_comm _ _
    _ ≤ n / P * P := Nat.mul_le_mul_right P h1

theorem grid_ceil (d n P : Nat) (hP : 0 < P) (hd : P ∣ d) (h : n ≤ d) (hr : 0 < n % P) :
    (n / P + 1) * P ≤ d := by
  obtain ⟨j, rfl⟩ := hd
  have h0 : n ≠ P * j := by
    intro he
    rw [he, Nat.mul_mod_right] at hr
    exact Nat.lt_irrefl 0 hr
  have h1 : n / P < j := (Nat.div_lt_iff_lt_mul hP).2 (by rw [Nat.mul_comm]; omega)
  calc (n / P + 1) * P ≤ j * P := Nat.mul_le_mul_right P h1
    _ = P * j := Nat.mul_comm _ _

theorem round_frame (n : Nat) (h : 2 ^ 52 ≤ n) (hn : n < 2 ^ 4096) :
    52 ≤ log2 n ∧ 2 ^ 52 * 2 ^ (log2 n - 52) ≤ n ∧ n < 2 ^ 53 * 2 ^ (log2 n - 52) ∧
      2 ^ 52 ≤ n / 2 ^ (log2 n - 52) ∧ n / 2 ^ (log2 n - 52) < 2 ^ 53 := by
  have h0 : n ≠ 0 := Nat.pos_iff_ne_zero.1 (lt_of_lt_of_le (Nat.pow_pos (by decide)) h)
  have h1 := log2_le n h0 hn
  have h2 := lt_log2 n h0 hn
  have h3 : 52 ≤ log2 n := by
    have : 2 ^ 52 < 2 ^ (log2 n + 1) := lt_of_le_of_lt h h2
    have := (Nat.pow_lt_pow_iff_right (by decide : 1 < 2)).1 this
    omega
  have e1 : 2 ^ 52 * 2 ^ (log2 n - 52) = 2 ^ log2 n := by
    rw [← pow_add]; congr 1; omega
  have e2 : 2 ^ 53 * 2 ^ (log2 n - 52) = 2 ^ (log2 n + 1) := by
    rw [← pow_add]; congr 1; omega
  have hP : 0 < 2 ^ (log2 n - 52) := Nat.pow_pos (by decide)
  refine ⟨h3, by rw [e1]; exact h1, by rw [e2]; exact h2, ?_, ?_⟩
  · exact (Nat.le_div_iff_mul_le hP).2 (by rw [e1]; exact h1)
  · exact (Nat.div_lt_iff_lt_mul hP).2 (by rw [e2]; exact h2)

theorem roundMag_ge (d n : Nat) (hd : Rep d) (h : d ≤ n) (hn : n < 2 ^ 4096) :
    d ≤ roundMag n := by
  by_cases h53 : n < 2 ^ 53
  · unfold roundMag; rw [if_pos h53]; exact h
  · obtain ⟨hk, hlo, _, hq, _⟩ := round_frame n (le_trans (by norm_num) (Nat.le_of_not_lt h53)) hn
    have hP : 0 < 2 ^ (log2 n - 52) := Nat.pow_pos (by decide)
    have hfloor : d ≤ n / 2 ^ (log2 n - 52) * 2 ^ (log2 n - 52) := by
      by_cases hdk : 2 ^ log2 n ≤ d
      · exact grid_floor d n _ hP (rep_grid d _ hd hdk) h
      · have e1 : 2 ^ 52 * 2 ^ (log2 n - 52) = 2 ^ log2 n := by
          rw [← pow_add]; congr 1; omega
        calc d ≤ 2 ^ log2 n := Nat.le_of_lt (Nat.lt_of_not_le hdk)
          _ = 2 ^ 52 * 2 ^ (log2 n - 52) := e1.symm
          _ ≤ n / 2 ^ (log2 n - 52) * 2 ^ (log2 n - 52) := Nat.mul_le_mul_right _ hq
    rcases roundMag_cases n h53 with hr | ⟨hr, _⟩
    · rw [hr]; exact hfloor
    · rw [hr]
      exact le_trans hfloor (Nat.mul_le_mul_right _ (Nat.le_succ _))

theorem roundMag_le (d n : Nat) (hd : Rep d) (h : n ≤ d) (hn : n < 2 ^ 4096) :
    roundMag n ≤ d := by
  by_cases h53 : n < 2 ^ 53
  · unfold roundMag; rw [if_pos h53]; exact h
  · obtain ⟨hk, hlo, hhi, _, hq⟩ := round_frame n (le_trans (by norm_num) (Nat.le_of_not_lt h53)) hn
    have hP : 0 < 2 ^ (log2 n - 52) := Nat.pow_pos (by decide)
    rcases roundMag_cases n h53 with hr | ⟨hr, hrem⟩
    · rw [hr]
      exact le_trans (Nat.div_mul_le_self n _) h
    · rw [hr]
      by_cases hdk : 2 ^ 53 * 2 ^ (log2 n - 52) ≤ d
      · exact le_trans (Nat.mul_le_mul_right _ hq) hdk
      · have e1 : 2 ^ 52 * 2 ^ (log2 n - 52) = 2 ^ log2 n := by
          rw [← pow_add]; congr 1; omega
        have hdk2 : 2 ^ log2 n ≤ d := by rw [← e1]; exact le_trans hlo h
        exact grid_ceil d n _ hP (rep_grid d _ hd hdk2) h hrem

theorem rep_roundMag (n : Nat) (hn : n < 2 ^ 4096) : Rep (roundMag n) := by
  by_cases h53 : n < 2 ^ 53
  · unfold roundMag; rw [if_pos h53]; exact ⟨n, 0, h53, by simp⟩
  · obtain ⟨_, _, _, _, hq⟩ := round_frame n (le_trans (by norm_num) (Nat.le_of_not_lt h53)) hn
    rcases roundMag_cases n h53 with hr | ⟨hr, _⟩
    · rw [hr]; exact ⟨_, _, hq, rfl⟩
    · rw [hr]
      by_cases hc : n / 2 ^ (log2 n - 52) + 1 < 2 ^ 53
      · exact ⟨_, _, hc, rfl⟩
      · have e : n / 2 ^ (log2 n - 52) + 1 = 2 ^ 53 := by omega
        refine ⟨2 ^ 52, log2 n - 52 + 1, by norm_num, ?_⟩
        rw [e]
        ring

theorem pow_lt_big (a b : Nat) (h : a < b) : (2:Nat) ^ a < 2 ^ b :=
  Nat.pow_lt_pow_right (by decide) h

theorem pow_le_big (a b : Nat) (h : a ≤ b) : (2:Nat) ^ a ≤ 2 ^ b :=
  Nat.pow_le_pow_right (by decide) h

theorem shl_two_pow (a b c : Nat) (h : a + b = c) : (2 ^ a + 0) <<< b = 2 ^ c := by
  subst h
  rw [Nat.add_zero, Nat.shiftLeft_eq, ← pow_add]

theorem frac_lt (x : F64) : x.frac.val < 2 ^ 52 := by
  have h := x.frac.isLt
  have e : (2:Nat) ^ 52 = 4503599627370496 := by norm_num
  rw [e]
  exact h

theorem rep_mag (x : F64) : Rep (mag x) := by
  have hf := frac_lt x
  unfold mag
  split
  · exact ⟨x.frac.val, 0, lt_trans hf (by norm_num), by simp⟩
  · refine ⟨2 ^ 52 + x.frac.val, x.expo.val - 1, ?_, by rw [Nat.shiftLeft_eq]⟩
    have e : (2:Nat) ^ 53 = 2 ^ 52 + 2 ^ 52 := by norm_num
    rw [e]
    omega

theorem mag_inf (s : Bool) : mag (inf s) = 2 ^ 2098 := by
  have hv : (inf s).expo.val = 2047 := rfl
  have hf : (inf s).frac.val = 0 := rfl
  unfold mag
  rw [hv, hf, if_neg (by decide)]
  exact shl_two_pow 52 (2047 - 1) 2098 rfl

theorem mag_lt_of_finite (x : F64) (h : x.expo.val ≠ 2047) : mag x < 2 ^ 2098 := by
  have hf := frac_lt x
  have hx := x.expo.isLt
  unfold mag
  split
  · exact lt_trans hf (pow_lt_big 52 2098 (by decide))
  · rw [Nat.shiftLeft_eq]
    have e : (2:Nat) ^ 53 = 2 ^ 52 + 2 ^ 52 := by norm_num
    calc (2 ^ 52 + x.frac.val) * 2 ^ (x.expo.val - 1)
        < 2 ^ 53 * 2 ^ (x.expo.val - 1) :=
          Nat.mul_lt_mul_of_pos_right (by rw [e]; omega) (Nat.pow_pos (by decide))
      _ = 2 ^ (53 + (x.expo.val - 1)) := (pow_add 2 _ _).symm
      _ ≤ 2 ^ 2098 := pow_le_big _ 2098 (by omega)

theorem expo_of_finite (x : F64) (h1 : isNaN x = false) (h2 : isInf x = false) :
    x.expo.val ≠ 2047 := by
  intro h
  simp [isNaN, isInf, h] at h1 h2
  exact h2 h1

theorem eq_inf_of_isInf (x : F64) (hi : isInf x = true) : x = inf x.sign := by
  simp [isInf] at hi
  cases x with
  | mk s e f =>
    simp only [inf, F64.mk.injEq, true_and]
    exact ⟨Fin.ext hi.1, Fin.ext hi.2⟩

theorem mag_le_of_not_nan (x : F64) (h : isNaN x = false) : mag x ≤ 2 ^ 2098 := by
  by_cases hi : isInf x = true
  · rw [eq_inf_of_isInf x hi, mag_inf]
  · exact le_of_lt (mag_lt_of_finite x (expo_of_finite x h (by simpa using hi)))

theorem roundMag_bound (n : Nat) (hn : n < 2 ^ 2100) : roundMag n < 2 ^ 4096 := by
  have hn2 : n < 2 ^ 4096 := lt_trans hn (pow_lt_big _ _ (by decide))
  have h1 : roundMag n ≤ 2 ^ 2100 :=
    roundMag_le _ n ⟨1, 2100, by norm_num, (Nat.one_mul _).symm⟩ (le_of_lt hn) hn2
  exact lt_of_le_of_lt h1 (pow_lt_big _ _ (by decide))

theorem mag_ofMag (s : Bool) (n : Nat) (hn : n < 2 ^ 2100) :
    mag (ofMag s n) = min (roundMag n) (2 ^ 2098) ∧ isNaN (ofMag s n) = false ∧
      (ofMag s n).sign = s := by
  have hn2 : n < 2 ^ 4096 := lt_trans hn (pow_lt_big _ _ (by decide))
  have hrep := rep_roundMag n hn2
  have hm := roundMag_bound n hn
  unfold ofMag
  generalize roundMag n = m at hrep hm ⊢
  have e52 : (2:Nat) ^ 52 = 4503599627370496 := by norm_num
  by_cases h52 : m < 2 ^ 52
  · simp only [if_pos h52]
    have hv : (Fin.ofNat m : Fin 4503599627370496).val = m := by
      show m % 4503599627370496 = m
      rw [← e52]
      exact Nat.mod_eq_of_lt h52
    refine ⟨?_, ?_, trivial⟩
    · unfold mag
      simp only [Fin.val_zero, if_true, hv]
      exact (Nat.min_eq_left (le_of_lt (lt_trans h52 (pow_lt_big _ _ (by decide))))).symm
    · simp [isNaN]
  · simp only [if_neg h52]
    obtain ⟨hk, hlo, hhi, hq1, hq2⟩ := round_frame m (Nat.le_of_not_lt h52) hm
    have hm0 : m ≠ 0 := by
      intro h0
      apply h52
      rw [h0]
      exact Nat.pow_pos (by decide)
    by_cases he : 2046 ≤ log2 m - 52
    · simp only [if_pos he]
      refine ⟨?_, by simp [isNaN, inf], rfl⟩
      rw [mag_inf]
      refine (Nat.min_eq_right ?_).symm
      calc 2 ^ 2098 ≤ 2 ^ log2 m := pow_le_big _ _ (by omega)
        _ ≤ m := log2_le m hm0 hm
    · simp only [if_neg he]
      have hv1 : (Fin.ofNat (log2 m - 52 + 1) : Fin 2048).val = log2 m - 52 + 1 := by
        show (log2 m - 52 + 1) % 2048 = _
        exact Nat.mod_eq_of_lt (by omega)
      have hv2 : (Fin.ofNat (m >>> (log2 m - 52) - 2 ^ 52) : Fin 4503599627370496).val =
          m / 2 ^ (log2 m - 52) - 2 ^ 52 := by
        show (m >>> (log2 m - 52) - 2 ^ 52) % 4503599627370496 = _
        rw [Nat.shiftRight_eq_div_pow]
        apply Nat.mod_eq_of_lt
        have e53 : (2:Nat) ^ 53 = 4503599627370496 + 4503599627370496 := by norm_num
        rw [e53] at hq2
        omega
      refine ⟨?_, ?_, trivial⟩
      · unfold mag
        simp only [hv1, hv2]
        rw [if_neg (by omega), Nat.shiftLeft_eq, Nat.add_sub_cancel,
          Nat.add_sub_cancel' hq1,
          Nat.div_mul_cancel (rep_grid m (log2 m) hrep (log2_le m hm0 hm))]
        refine (Nat.min_eq_left (le_of_lt ?_)).symm
        calc m < 2 ^ (log2 m + 1) := lt_log2 m hm0 hm
          _ ≤ 2 ^ 2098 := pow_le_big _ _ (by omega)
      · simp only [isNaN, hv1]
        simp
        omega

theorem toInt_neg_sign (x : F64) (h : x.sign = true) : toInt x = -(mag x : Int) := by
  unfold toInt; rw [if_pos h]

theorem toInt_pos_sign (x : F64) (h : x.sign = false) : toInt x = (mag x : Int) := by
  unfold toInt; rw [if_neg (by simp [h])]

theorem ofMag_signed (v : Int) (hv : v ≠ 0) (hb : v.natAbs < 2 ^ 2100) (d : F64)
    (hd : isNaN d = false) :
    isNaN (ofMag (decide (v < 0)) v.natAbs) = false ∧
    (toInt d ≤ v → toInt d ≤ toInt (ofMag (decide (v < 0)) v.natAbs)) ∧
    (v ≤ toInt d → toInt (ofMag (decide (v < 0)) v.natAbs) ≤ toInt d) := by
  obtain ⟨hmag, hnan, hsign⟩ := mag_ofMag (decide (v < 0)) v.natAbs hb
  have hb2 : v.natAbs < 2 ^ 4096 := lt_trans hb (pow_lt_big _ _ (by decide))
  have hdB := mag_le_of_not_nan d hd
  have hge := fun h => roundMag_ge (mag d) v.natAbs (rep_mag d) h hb2
  have hle := fun h => roundMag_le (mag d) v.natAbs (rep_mag d) h hb2
  refine ⟨hnan, ?_, ?_⟩
  · intro h
    by_cases hneg : v < 0
    · have hs : (ofMag (decide (v < 0)) v.natAbs).sign = true := by rw [hsign]; simpa using hneg
      rw [toInt_neg_sign _ hs, hmag]
      have hds : d.sign = true := by
        by_contra hc
        rw [toInt_pos_sign d (by simpa using hc)] at h
        omega
      rw [toInt_neg_sign d hds] at h ⊢
      have h1 := hle (by omega)
      have h2 := Nat.min_le_left (roundMag v.natAbs) (2 ^ 2098)
      omega
    · have hs : (ofMag (decide (v < 0)) v.natAbs).sign = false := by rw [hsign]; simpa using hneg
      rw [toInt_pos_sign _ hs, hmag]
      cases hds : d.sign
      · rw [toInt_pos_sign d hds] at h ⊢
        have h1 := hge (by omega)
        have h2 : mag d ≤ min (roundMag v.natAbs) (2 ^ 2098) := Nat.le_min.2 ⟨h1, hdB⟩
        omega
      · rw [toInt_neg_sign d hds]
        omega
  · intro h
    by_cases hneg : v < 0
    · have hs : (ofMag (decide (v < 0)) v.natAbs).sign = true := by rw [hsign]; simpa using hneg
      rw [toInt_neg_sign _ hs, hmag]
      cases hds : d.sign
      · rw [toInt_pos_sign d hds]
        omega
      · rw [toInt_neg_sign d hds] at h ⊢
        have h1 := hge (by omega)
        have h2 : mag d ≤ min (roundMag v.natAbs) (2 ^ 2098) := Nat.le_min.2 ⟨h1, hdB⟩
        omega
    · have hs : (ofMag (decide (v < 0)) v.natAbs).sign = false := by rw [hsign]; simpa using hneg
      rw [toInt_pos_sign _ hs, hmag]
      have hds : d.sign = false := by
        by_contra hc
        rw [toInt_neg_sign d (by simpa using hc)] at h
        omega
      rw [toInt_pos_sign d hds] at h ⊢
      have h1 := hle (by omega)
      have h2 := Nat.min_le_left (roundMag v.natAbs) (2 ^ 2098)
      omega

theorem add_finite (x y : F64) (hx1 : isNaN x = false) (hx2 : isInf x = false)
    (hy1 : isNaN y = false) (hy2 : isInf y = false) :
    add x y = if x.toInt + y.toInt = 0 then ⟨x.sign && y.sign, 0, 0⟩
      else ofMag (decide (x.toInt + y.toInt < 0)) (x.toInt + y.toInt).natAbs := by
  unfold add
  simp [hx1, hx2, hy1, hy2]

theorem natAbs_toInt (x : F64) : (toInt x).natAbs = mag x := by
  unfold toInt
  split <;> simp

theorem toInt_zero_frac (s : Bool) : toInt ⟨s, 0, 0⟩ = 0 := by
  unfold toInt mag
  cases s <;> simp

theorem pow_2100 : (2:Nat) ^ 2100 = 4 * 2 ^ 2098 := by
  have h : (2100 : Nat) = 2 + 2098 := rfl
  rw [h, pow_add]
  exact congrArg (· * 2 ^ 2098) (by norm_num : (2:Nat) ^ 2 = 4)

theorem add_finite_spec (x y d : F64) (hx1 : isNaN x = false) (hx2 : isInf x = false)
    (hy1 : isNaN y = false) (hy2 : isInf y = false) (hd : isNaN d = false) :
    isNaN (add x y) = false ∧
    (toInt d ≤ toInt x + toInt y → toInt d ≤ toInt (add x y)) ∧
    (toInt x + toInt y ≤ toInt d → toInt (add x y) ≤ toInt d) := by
  rw [add_finite x y hx1 hx2 hy1 hy2]
  by_cases hv : x.toInt + y.toInt = 0
  · rw [if_pos hv, toInt_zero_frac, hv]
    exact ⟨by simp [isNaN], id, id⟩
  · rw [if_neg hv]
    apply ofMag_signed _ hv _ d hd
    have h1 := mag_lt_of_finite x (expo_of_finite x hx1 hx2)
    have h2 := mag_lt_of_finite y (expo_of_finite y hy1 hy2)
    have h3 := natAbs_toInt x
    have h4 := natAbs_toInt y
    have h5 := Int.natAbs_add_le x.toInt y.toInt
    rw [pow_2100]
    omega

theorem le_iff (x y : F64) :
    le x y = true ↔ isNaN x = false ∧ isNaN y = false ∧ toInt x ≤ toInt y := by
  unfold le
  simp [and_assoc]

theorem lt_iff (x y : F64) :
    lt x y = true ↔ isNaN x = false ∧ isNaN y = false ∧ toInt x < toInt y := by
  unfold lt
  simp [and_assoc]

theorem toInt_zero : toInt zero = 0 := toInt_zero_frac false

theorem mag_one : mag one = 2 ^ 1074 := by
  have hv : one.expo.val = 1023 := rfl
  have hf : one.frac.val = 0 := rfl
  unfold mag
  rw [hv, hf, if_neg (by decide)]
  exact shl_two_pow 52 (1023 - 1) 1074 rfl

theorem toInt_one : toInt one = 2 ^ 1074 := by
  have hs : one.sign = false := rfl
  rw [toInt_pos_sign one hs, mag_one]
  simp only [Nat.cast_pow, Nat.cast_ofNat]

theorem toInt_inf (s : Bool) : toInt (inf s) = if s then -(2 ^ 2098 : Int) else 2 ^ 2098 := by
  unfold toInt
  rw [mag_inf]
  have hs : (inf s).sign = s := rfl
  rw [hs]
  norm_cast

theorem isNaN_neg (x : F64) : isNaN (neg x) = isNaN x := rfl

theorem isInf_neg (x : F64) : isInf (neg x) = isInf x := rfl

theorem toInt_neg (x : F64) : toInt (neg x) = -toInt x := by
  have hm : mag (neg x) = mag x := rfl
  have hs : (neg x).sign = !x.sign := rfl
  unfold toInt
  rw [hm, hs]
  cases x.sign <;> simp

theorem add_inf_left (x y : F64) (hy : isNaN y = false) (hx : isInf x = true)
    (h : isInf y = true → y.sign = x.sign) : add x y = x := by
  have hxn : isNaN x = false := by
    simp [isInf] at hx
    simp [isNaN, hx]
  unfold add
  simp only [hxn, hy, hx, Bool.or_self, Bool.false_eq_true, if_false, if_true]
  split
  · rename_i hc
    simp only [Bool.and_eq_true, bne_iff_ne, ne_eq] at hc
    exact absurd (h hc.1).symm hc.2
  · rfl

theorem add_inf_right (x y : F64) (hx1 : isNaN x = false) (hx2 : isInf x = false)
    (hy : isInf y = true) : add x y = y := by
  have hyn : isNaN y = false := by
    simp [isInf] at hy
    simp [isNaN, hy]
  unfold add
  simp [hx1, hx2, hyn, hy]

theorem sign_of_inf_nonneg (x : F64) (hi : isInf x = true) (h : 0 ≤ toInt x) :
    x.sign = false := by
  by_contra hc
  have hs : x.sign = true := by simpa using hc
  have hp : (0:Int) < 2 ^ 2098 := by positivity
  rw [eq_inf_of_isInf x hi, toInt_inf, hs] at h
  simp only [if_true] at h
  omega

theorem sign_of_inf_nonpos (x : F64) (hi : isInf x = true) (h : toInt x ≤ 0) :
    x.sign = true := by
  by_contra hc
  have hs : x.sign = false := by simpa using hc
  have hp : (0:Int) < 2 ^ 2098 := by positivity
  rw [eq_inf_of_isInf x hi, toInt_inf, hs] at h
  simp only [Bool.false_eq_true, if_false] at h
  omega

theorem toInt_bounds (x : F64) (h : isNaN x = false) :
    -(2 ^ 2098 : Int) ≤ toInt x ∧ toInt x ≤ 2 ^ 2098 := by
  have h1 := mag_le_of_not_nan x h
  have h2 : ((mag x : Nat) : Int) ≤ 2 ^ 2098 := by exact_mod_cast h1
  unfold toInt
  split <;> omega

/-- Adding a step that is `>= 0` to a share that is `>= 0` does not lower the share. -/
theorem add_nonneg (c s : F64) (hc : le zero c = true) (hs : le zero s = true) :
    le c (add c s) = true ∧ le zero (add c s) = true := by
  rw [le_iff, toInt_zero] at hc hs
  obtain ⟨hz, hcn, hc0⟩ := hc
  obtain ⟨_, hsn, hs0⟩ := hs
  by_cases hci : isInf c = true
  · have hadd : add c s = c := by
      apply add_inf_left c s hsn hci
      intro hsi
      rw [sign_of_inf_nonneg c hci hc0, sign_of_inf_nonneg s hsi hs0]
    rw [hadd, le_iff, le_iff, toInt_zero]
    exact ⟨⟨hcn, hcn, le_refl _⟩, hz, hcn, hc0⟩
  · have hci2 : isInf c = false := by simpa using hci
    by_cases hsi : isInf s = true
    · rw [add_inf_right c s hcn hci2 hsi, le_iff, le_iff, toInt_zero]
      refine ⟨⟨hcn, hsn, ?_⟩, hz, hsn, hs0⟩
      have h1 := (toInt_bounds c hcn).2
      have h2 := sign_of_inf_nonneg s hsi hs0
      rw [eq_inf_of_isInf s hsi, toInt_inf, h2]
      exact h1
    · have hsi2 : isInf s = false := by simpa using hsi
      obtain ⟨hn, hlo, _⟩ := add_finite_spec c s c hcn hci2 hsn hsi2 hcn
      obtain ⟨_, hlo0, _⟩ := add_finite_spec c s zero hcn hci2 hsn hsi2 hz
      rw [toInt_zero] at hlo0
      rw [le_iff, le_iff, toInt_zero]
      exact ⟨⟨hcn, hn, hlo (by omega)⟩, hz, hn, hlo0 (by omega)⟩

/-- Adding a step that is `<= 0` to a share that is `<= 0` leaves it `<= 0`. -/
theorem add_nonpos (c s : F64) (hc : le c zero = true) (hs : le s zero = true) :
    le (add c s) zero = true := by
  rw [le_iff, toInt_zero] at hc hs
  obtain ⟨hcn, hz, hc0⟩ := hc
  obtain ⟨hsn, _, hs0⟩ := hs
  by_cases hci : isInf c = true
  · have hadd : add c s = c := by
      apply add_inf_left c s hsn hci
      intro hsi
      rw [sign_of_inf_nonpos c hci hc0, sign_of_inf_nonpos s hsi hs0]
    rw [hadd, le_iff, toInt_zero]
    exact ⟨hcn, hz, hc0⟩
  · have hci2 : isInf c = false := by simpa using hci
    by_cases hsi : isInf s = true
    · rw [add_inf_right c s hcn hci2 hsi, le_iff, toInt_zero]
      exact ⟨hsn, hz, hs0⟩
    · have hsi2 : isInf s = false := by simpa using hsi
      obtain ⟨hn, _, hhi⟩ := add_finite_spec c s zero hcn hci2 hsn hsi2 hz
      rw [toInt_zero] at hhi
      rw [le_iff, toInt_zero]
      exact ⟨hn, hz, hhi (by omega)⟩

theorem one_finite : isNaN one = false ∧ isInf one = false := ⟨rfl, rfl⟩

/-- For a step that is `<= 0` the promotion threshold `1 - step` is at least 1. -/
theorem one_le_sub_one (s : F64) (hs : le s zero = true) : le one (sub one s) = true := by
  rw [le_iff, toInt_zero] at hs
  obtain ⟨hsn, hz, hs0⟩ := hs
  have hnn : isNaN (neg s) = false := by rw [isNaN_neg]; exact hsn
  unfold sub
  by_cases hsi : isInf s = true
  · have hni : isInf (neg s) = true := by rw [isInf_neg]; exact hsi
    rw [add_inf_right one (neg s) one_finite.1 one_finite.2 hni, le_iff]
    refine ⟨one_finite.1, hnn, ?_⟩
    have h1 := (toInt_bounds one one_finite.1).2
    have h2 : 0 ≤ toInt (neg s) := by rw [toInt_neg]; omega
    rw [eq_inf_of_isInf (neg s) hni, toInt_inf, sign_of_inf_nonneg (neg s) hni h2]
    exact h1
  · have hni : isInf (neg s) = false := by rw [isInf_neg]; simpa using hsi
    obtain ⟨hn, hlo, _⟩ :=
      add_finite_spec one (neg s) one one_finite.1 one_finite.2 hnn hni one_finite.1
    rw [le_iff]
    exact ⟨one_finite.1, hn, hlo (by rw [toInt_neg]; omega)⟩

/-- The no-overshoot argument in binary64: when `0 < s <= 1`, `0 <= c` and the check
`c >= 1 - s` fails, then `c < 1 - s` as floats, the exact sum `c + s` is below 1,
and the rounded sum is at most 1 and `>= 0`. -/
theorem add_below_threshold (c s : F64) (hs0 : lt zero s = true) (hs1 : le s one = true)
    (hc : le zero c = true) (hg : ge c (sub one s) = false) :
    lt c (sub one s) = true ∧ toInt c + toInt s < toInt one ∧
      le (add c s) one = true ∧ le zero (add c s) = true := by
  rw [lt_iff, toInt_zero] at hs0
  rw [le_iff] at hs1
  rw [le_iff, toInt_zero] at hc
  obtain ⟨hz, hsn, hs0⟩ := hs0
  obtain ⟨_, hon, hs1⟩ := hs1
  obtain ⟨_, hcn, hc0⟩ := hc
  have hbig : (2:Int) ^ 1074 < 2 ^ 2098 := pow_lt_pow_right₀ (by norm_num) (by norm_num)
  have hsi : isInf s = false := by
    by_contra hc
    have hi : isInf s = true := by simpa using hc
    have h2 := sign_of_inf_nonneg s hi (by omega)
    rw [eq_inf_of_isInf s hi, toInt_inf, h2, toInt_one] at hs1
    simp only [Bool.false_eq_true, if_false] at hs1
    omega
  have hnn : isNaN (neg s) = false := by rw [isNaN_neg]; exact hsn
  have hni : isInf (neg s) = false := by rw [isInf_neg]; exact hsi
  obtain ⟨htn, _, hthi⟩ :=
    add_finite_spec one (neg s) one one_finite.1 one_finite.2 hnn hni one_finite.1
  obtain ⟨_, _, htc⟩ :=
    add_finite_spec one (neg s) c one_finite.1 one_finite.2 hnn hni hcn
  rw [toInt_neg] at hthi htc
  have hthr : toInt c < toInt (sub one s) := by
    by_contra hcon
    have : le (sub one s) c = true := by
      rw [le_iff]
      exact ⟨htn, hcn, by omega⟩
    unfold ge at hg
    rw [this] at hg
    exact Bool.noConfusion hg
  have hthr1 : toInt (sub one s) ≤ toInt one := hthi (by omega)
  have hci : isInf c = false := by
    by_contra hc
    have hi : isInf c = true := by simpa using hc
    have h2 := sign_of_inf_nonneg c hi hc0
    have hcv : toInt c = 2 ^ 2098 := by
      rw [eq_inf_of_isInf c hi, toInt_inf, h2]
      simp only [Bool.false_eq_true, if_false]
    rw [toInt_one] at hthr1
    omega
  have hsum : toInt c + toInt s < toInt one := by
    by_contra hcon
    have := htc (by omega)
    unfold sub at hthr
    omega
  obtain ⟨han, _, hahi⟩ := add_finite_spec c s one hcn hci hsn hsi hon
  obtain ⟨_, halo, _⟩ := add_finite_spec c s zero hcn hci hsn hsi hz
  rw [toInt_zero] at halo
  refine ⟨?_, hsum, ?_, ?_⟩
  · rw [lt_iff]; exact ⟨hcn, htn, hthr⟩
  · rw [le_iff]; exact ⟨han, hon, hahi (le_of_lt hsum)⟩
  · rw [le_iff, toInt_zero]; exact ⟨hz, han, halo (by omega)⟩

end F64

/-! ## Facts about the controller -/

theorem adjustTrafficSplit_err (f : function) (w : World) (err : Error)
    (h : f.awsClient w.calls.length (splitInput f (F64.add f.currentNewVersionPct f.step))
      = some err) :
    adjustTrafficSplit f w = (some err, f,
      { w with calls := w.calls ++ [splitInput f (F64.add f.currentNewVersionPct f.step)] }) := by
  unfold splitInput at h
  simp only [adjustTrafficSplit, UpdateAlias, h, splitInput]

theorem adjustTrafficSplit_ok (f : function) (w : World)
    (h : f.awsClient w.calls.length (splitInput f (F64.add f.currentNewVersionPct f.step))
      = none) :
    adjustTrafficSplit f w =
      (none, { f with currentNewVersionPct := F64.add f.currentNewVersionPct f.step },
        { w with calls := w.calls ++ [splitInput f (F64.add f.currentNewVersionPct f.step)] }) := by
  unfold splitInput at h
  simp only [adjustTrafficSplit, UpdateAlias, h, splitInput]

theorem promoteNewVersion_eq (f : function) (w : World) :
    promoteNewVersion f w = (f.awsClient w.calls.length (cutoverInput f), f,
      { w with calls := w.calls ++ [cutoverInput f] }) := by
  unfold promoteNewVersion UpdateAlias cutoverInput
  split <;> simp_all

theorem deploy_tick_promote (rest : List Select) (f : function) (w : World)
    (h : F64.ge f.currentNewVersionPct (F64.sub F64.one f.step) = true) :
    deploy (.tickerC :: rest) f w =
      (.returned (f.awsClient w.calls.length (cutoverInput f)), f,
        { w with calls := w.calls ++ [cutoverInput f] }) := by
  rw [deploy, if_pos h, promoteNewVersion_eq]
  cases hc : f.awsClient w.calls.length (cutoverInput f) <;> rfl

theorem deploy_tick_err (rest : List Select) (f : function) (w : World) (err : Error)
    (h : F64.ge f.currentNewVersionPct (F64.sub F64.one f.step) = false)
    (hc : f.awsClient w.calls.length (splitInput f (F64.add f.currentNewVersionPct f.step))
      = some err) :
    deploy (.tickerC :: rest) f w = (.returned (some err), f,
      { w with calls := w.calls ++ [splitInput f (F64.add f.currentNewVersionPct f.step)] }) := by
  rw [deploy, if_neg (by simp [h]), adjustTrafficSplit_err f w err hc]

theorem deploy_tick_ok (rest : List Select) (f : function) (w : World)
    (h : F64.ge f.currentNewVersionPct (F64.sub F64.one f.step) = false)
    (hc : f.awsClient w.calls.length (splitInput f (F64.add f.currentNewVersionPct f.step))
      = none) :
    deploy (.tickerC :: rest) f w =
      deploy rest { f with currentNewVersionPct := F64.add f.currentNewVersionPct f.step }
        { calls := w.calls ++ [splitInput f (F64.add f.currentNewVersionPct f.step)]
          stdout := w.stdout ++ [F64.add f.currentNewVersionPct f.step] } := by
  rw [deploy, if_neg (by simp [h]), adjustTrafficSplit_ok f w hc]

theorem deploy_append (pre more : List Select) : ∀ (f : function) (w : World)
    (f1 : function) (w1 : World), deploy pre f w = (.waiting, f1, w1) →
    deploy (pre ++ more) f w = deploy more f1 w1 := by
  induction pre with
  | nil =>
    intro f w f1 w1 h
    simp only [deploy, Prod.mk.injEq, true_and] at h
    rw [List.nil_append, h.1, h.2]
  | cons ev pre ih =>
    intro f w f1 w1 h
    cases ev with
    | ctxDone => simp [deploy] at h
    | tickerC =>
      rw [List.cons_append]
      by_cases hg : F64.ge f.currentNewVersionPct (F64.sub F64.one f.step) = true
      · rw [deploy_tick_promote _ f w hg] at h
        simp at h
      · have hg2 : F64.ge f.currentNewVersionPct (F64.sub F64.one f.step) = false := by
          simpa using hg
        cases hc : f.awsClient w.calls.length
            (splitInput f (F64.add f.currentNewVersionPct f.step)) with
        | some err =>
          rw [deploy_tick_err _ f w err hg2 hc] at h
          simp at h
        | none =>
          rw [deploy_tick_ok _ f w hg2 hc] at h ⊢
          exact ih _ _ _ _ h

theorem deploy_ramp (rest : List Select) (n : Nat) : ∀ (f : function) (w : World) (m : Nat),
    f.currentNewVersionPct = rampShare f.step m →
    (∀ i inp, f.awsClient i inp = none) →
    (∀ i, i < n → F64.ge (rampShare f.step (m + i)) (F64.sub F64.one f.step) = false) →
    deploy (List.replicate n .tickerC ++ rest) f w =
      deploy rest { f with currentNewVersionPct := rampShare f.step (m + n) }
        { calls := w.calls ++ (rampList f.step m n).map (splitInput f)
          stdout := w.stdout ++ rampList f.step m n } := by
  induction n with
  | zero =>
    intro f w m h0 _ _
    simp only [List.replicate, List.nil_append, rampList, List.map_nil, List.append_nil,
      Nat.add_zero]
    rw [← h0]
  | succ n ih =>
    intro f w m h0 hc hg
    have hg0 : F64.ge f.currentNewVersionPct (F64.sub F64.one f.step) = false := by
      rw [h0]; exact hg 0 (Nat.succ_pos n)
    have hadd : F64.add f.currentNewVersionPct f.step = rampShare f.step (m + 1) := by
      rw [h0]; rfl
    rw [List.replicate_succ, List.cons_append, deploy_tick_ok _ f w hg0 (hc _ _), hadd]
    rw [ih { f with currentNewVersionPct := rampShare f.step (m + 1) } _ (m + 1) rfl hc
      (fun i hi => by
        have := hg (i + 1) (Nat.succ_lt_succ hi)
        rw [← Nat.add_assoc, Nat.add_right_comm] at this
        exact this)]
    simp only [rampList, List.map_cons, List.append_assoc, List.singleton_append]
    rw [Nat.add_right_comm m 1 n, Nat.add_assoc m n 1]
    rfl

theorem deploy_ramp_from_zero (client : Client) (arn aliasName target : String) (step : F64)
    (n : Nat) (rest : List Select) (hc : ∀ i inp, client i inp = none)
    (hg : ∀ i, i < n → F64.ge (rampShare step i) (F64.sub F64.one step) = false) :
    deploy (List.replicate n .tickerC ++ rest)
        ⟨client, arn, aliasName, F64.zero, target, step⟩ ⟨[], []⟩ =
      deploy rest ⟨client, arn, aliasName, rampShare step n, target, step⟩
        ⟨(rampList step 0 n).map (splitInput ⟨client, arn, aliasName, F64.zero, target, step⟩),
          rampList step 0 n⟩ := by
  have h := deploy_ramp rest n ⟨client, arn, aliasName, F64.zero, target, step⟩ ⟨[], []⟩ 0 rfl hc
    (fun i hi => by rw [Nat.zero_add]; exact hg i hi)
  simp only [Nat.zero_add, List.nil_append] at h
  exact h

theorem deploy_ramp_waiting (client : Client) (arn aliasName target : String) (step : F64)
    (n : Nat) (hc : ∀ i inp, client i inp = none)
    (hg : ∀ i, i < n → F64.ge (rampShare step i) (F64.sub F64.one step) = false) :
    deploy (List.replicate n .tickerC) ⟨client, arn, aliasName, F64.zero, target, step⟩ ⟨[], []⟩ =
      (.waiting, ⟨client, arn, aliasName, rampShare step n, target, step⟩,
        ⟨(rampList step 0 n).map (splitInput ⟨client, arn, aliasName, F64.zero, target, step⟩),
          rampList step 0 n⟩) := by
  have h := deploy_ramp_from_zero client arn aliasName target step n [] hc hg
  rw [List.append_nil] at h
  rw [h]
  simp only [deploy]

theorem main_ramp_running (client : Client) (arn aliasName target : String) (step : F64)
    (n : Nat) (hc : ∀ i inp, client i inp = none)
    (hg : ∀ i, i < n → F64.ge (rampShare step i) (F64.sub F64.one step) = false) :
    main (.ok client) arn aliasName target step n =
      (.running,
        ⟨(rampList step 0 n).map (splitInput ⟨client, arn, aliasName, F64.zero, target, step⟩),
          rampList step 0 n⟩) := by
  have h := deploy_ramp_from_zero client arn aliasName target step n [] hc hg
  rw [List.append_nil] at h
  unfold main
  simp only [NewFunction]
  rw [h]
  simp only [deploy]

theorem main_ramp_exited (client : Client) (arn aliasName target : String) (step : F64)
    (n : Nat) (hc : ∀ i inp, client i inp = none)
    (hg : ∀ i, i < n → F64.ge (rampShare step i) (F64.sub F64.one step) = false)
    (hd : F64.ge (rampShare step n) (F64.sub F64.one step) = true) :
    main (.ok client) arn aliasName target step (n + 1) =
      (.exited,
        ⟨(rampList step 0 n).map (splitInput ⟨client, arn, aliasName, F64.zero, target, step⟩)
            ++ [cutoverInput ⟨client, arn, aliasName, F64.zero, target, step⟩],
          rampList step 0 n⟩) := by
  have h := deploy_ramp_from_zero client arn aliasName target step n [.tickerC] hc hg
  rw [deploy_tick_promote [] ⟨client, arn, aliasName, rampShare step n, target, step⟩ _ hd] at h
  unfold main
  simp only [NewFunction]
  rw [List.replicate_succ', h]
  simp only [hc, cutoverInput]

theorem rampShare_nonneg (step : F64) (h : F64.le F64.zero step = true) (n : Nat) :
    F64.le F64.zero (rampShare step n) = true := by
  induction n with
  | zero => rfl
  | succ n ih => exact (F64.add_nonneg _ _ ih h).2

theorem rampShare_nonpos (step : F64) (h : F64.le step F64.zero = true) (n : Nat) :
    F64.le (rampShare step n) F64.zero = true := by
  induction n with
  | zero => rfl
  | succ n ih => exact F64.add_nonpos _ _ ih h

theorem length_rampList (step : F64) (n : Nat) : ∀ m, (rampList step m n).length = n := by
  induction n with
  | zero => intro m; rfl
  | succ n ih => intro m; simp [rampList, ih]

theorem mem_rampList (step : F64) (n : Nat) : ∀ (m : Nat) (x : F64),
    x ∈ rampList step m n → ∃ k, x = rampShare step k := by
  induction n with
  | zero =>
    intro m x hx
    simp [rampList] at hx
  | succ n ih =>
    intro m x hx
    simp only [rampList, List.mem_cons] at hx
    rcases hx with hx | hx
    · exact ⟨m + 1, hx⟩
    · exact ih _ _ hx

/-- With a share `<= 0` and a step `<= 0` the promotion check fails. -/
theorem nonpos_guard (c s : F64) (hc : F64.le c F64.zero = true)
    (hs : F64.le s F64.zero = true) :
    F64.ge c (F64.sub F64.one s) = false ∧ F64.lt c (F64.sub F64.one s) = true := by
  have h1 := F64.one_le_sub_one s hs
  rw [F64.le_iff] at h1 hc
  rw [F64.toInt_zero] at hc
  have hp : (0:Int) < 2 ^ 1074 := by positivity
  rw [F64.toInt_one] at h1
  constructor
  · unfold F64.ge
    cases hle : F64.le (F64.sub F64.one s) c
    · rfl
    · rw [F64.le_iff] at hle
      omega
  · rw [F64.lt_iff]
    exact ⟨hc.1, h1.2.1, by omega⟩

theorem deploy_inv (evs : List Select) : ∀ (f : function) (w : World),
    F64.lt F64.zero f.step = true → F64.le f.step F64.one = true →
    F64.le F64.zero f.currentNewVersionPct = true →
    F64.le f.currentNewVersionPct F64.one = true →
    (deploy evs f w).2.1.step = f.step ∧
    F64.le F64.zero (deploy evs f w).2.1.currentNewVersionPct = true ∧
    F64.le (deploy evs f w).2.1.currentNewVersionPct F64.one = true ∧
    ∃ sent, (deploy evs f w).2.2.calls = w.calls ++ sent ∧
      ∀ inp ∈ sent, ∀ cfg, inp.RoutingConfig = some cfg →
        ∀ p ∈ cfg.AdditionalVersionWeights,
          F64.le F64.zero p.2 = true ∧ F64.le p.2 F64.one = true := by
  induction evs with
  | nil =>
    intro f w _ _ h0 h1
    exact ⟨rfl, h0, h1, [], by simp [deploy], by simp⟩
  | cons ev rest ih =>
    intro f w hs0 hs1 h0 h1
    cases ev with
    | ctxDone => exact ⟨rfl, h0, h1, [], by simp [deploy], by simp⟩
    | tickerC =>
      by_cases hg : F64.ge f.currentNewVersionPct (F64.sub F64.one f.step) = true
      · rw [deploy_tick_promote _ f w hg]
        refine ⟨rfl, h0, h1, [cutoverInput f], rfl, ?_⟩
        intro inp hinp cfg hcfg p hp
        simp only [List.mem_singleton] at hinp
        subst hinp
        simp only [cutoverInput, Option.some.injEq] at hcfg
        subst hcfg
        simp at hp
      · have hg2 : F64.ge f.currentNewVersionPct (F64.sub F64.one f.step) = false := by
          simpa using hg
        obtain ⟨_, _, hle, hge⟩ :=
          F64.add_below_threshold f.currentNewVersionPct f.step hs0 hs1 h0 hg2
        have hsplit : ∀ inp ∈ [splitInput f (F64.add f.currentNewVersionPct f.step)],
            ∀ cfg, inp.RoutingConfig = some cfg → ∀ p ∈ cfg.AdditionalVersionWeights,
              F64.le F64.zero p.2 = true ∧ F64.le p.2 F64.one = true := by
          intro inp hinp cfg hcfg p hp
          simp only [List.mem_singleton] at hinp
          subst hinp
          simp only [splitInput, Option.some.injEq] at hcfg
          subst hcfg
          simp only [List.mem_singleton] at hp
          subst hp
          exact ⟨hge, hle⟩
        cases hc : f.awsClient w.calls.length
            (splitInput f (F64.add f.currentNewVersionPct f.step)) with
        | some err =>
          rw [deploy_tick_err _ f w err hg2 hc]
          exact ⟨rfl, h0, h1, _, rfl, hsplit⟩
        | none =>
          rw [deploy_tick_ok _ f w hg2 hc]
          obtain ⟨i1, i2, i3, sent, i4, i5⟩ :=
            ih { f with currentNewVersionPct := F64.add f.currentNewVersionPct f.step }
              { calls := w.calls ++ [splitInput f (F64.add f.currentNewVersionPct f.step)]
                stdout := w.stdout ++ [F64.add f.currentNewVersionPct f.step] }
              hs0 hs1 hge hle
          refine ⟨i1, i2, i3,
            splitInput f (F64.add f.currentNewVersionPct f.step) :: sent, ?_, ?_⟩
          · rw [i4]
            simp
          · intro inp hinp
            rcases List.mem_cons.1 hinp with hinp | hinp
            · exact hsplit inp (by simp [hinp])
            · exact i5 inp hinp

theorem deploy_calls (evs : List Select) : ∀ (f : function) (w : World),
    (deploy evs f w).2.1.awsClient = f.awsClient ∧
    ∃ sent, (deploy evs f w).2.2.calls = w.calls ++ sent := by
  induction evs with
  | nil => intro f w; exact ⟨rfl, [], by simp [deploy]⟩
  | cons ev rest ih =>
    intro f w
    cases ev with
    | ctxDone => exact ⟨rfl, [], by simp [deploy]⟩
    | tickerC =>
      by_cases hg : F64.ge f.currentNewVersionPct (F64.sub F64.one f.step) = true
      · rw [deploy_tick_promote _ f w hg]
        exact ⟨rfl, _, rfl⟩
      · have hg2 : F64.ge f.currentNewVersionPct (F64.sub F64.one f.step) = false := by
          simpa using hg
        cases hc : f.awsClient w.calls.length
            (splitInput f (F64.add f.currentNewVersionPct f.step)) with
        | some err =>
          rw [deploy_tick_err _ f w err hg2 hc]
          exact ⟨rfl, _, rfl⟩
        | none =>
          rw [deploy_tick_ok _ f w hg2 hc]
          obtain ⟨i1, sent, i2⟩ :=
            ih { f with currentNewVersionPct := F64.add f.currentNewVersionPct f.step }
              { calls := w.calls ++ [splitInput f (F64.add f.currentNewVersionPct f.step)]
                stdout := w.stdout ++ [F64.add f.currentNewVersionPct f.step] }
          exact ⟨i1, splitInput f (F64.add f.currentNewVersionPct f.step) :: sent,
            by rw [i2]; simp⟩

theorem getElem?_snoc_ge {α : Type} (l : List α) (x inp : α) (k : Nat) (hk : l.length ≤ k)
    (h : (l ++ [x])[k]? = some inp) : k = l.length ∧ inp = x := by
  rw [List.getElem?_append_right hk] at h
  cases hj : k - l.length with
  | zero =>
    rw [hj] at h
    simp at h
    exact ⟨by omega, h.symm⟩
  | succ j =>
    rw [hj] at h
    simp at h

theorem deploy_failed_call_is_last (evs : List Select) : ∀ (f : function) (w : World)
    (k : Nat) (inp : UpdateAliasInput) (err : Error),
    (deploy evs f w).2.2.calls[k]? = some inp → w.calls.length ≤ k →
    f.awsClient k inp = some err →
    (deploy evs f w).2.2.calls.length = k + 1 ∧ (deploy evs f w).1 = .returned (some err) := by
  induction evs with
  | nil =>
    intro f w k inp err h hk _
    simp only [deploy] at h
    rw [List.getElem?_eq_none hk] at h
    exact absurd h (by simp)
  | cons ev rest ih =>
    intro f w k inp err h hk he
    cases ev with
    | ctxDone =>
      simp only [deploy] at h
      rw [List.getElem?_eq_none hk] at h
      exact absurd h (by simp)
    | tickerC =>
      by_cases hg : F64.ge f.currentNewVersionPct (F64.sub F64.one f.step) = true
      · rw [deploy_tick_promote _ f w hg] at h ⊢
        obtain ⟨h1, h2⟩ := getElem?_snoc_ge _ _ _ _ hk h
        subst h1 h2
        exact ⟨by simp, by rw [he]⟩
      · have hg2 : F64.ge f.currentNewVersionPct (F64.sub F64.one f.step) = false := by
          simpa using hg
        cases hc : f.awsClient w.calls.length
            (splitInput f (F64.add f.currentNewVersionPct f.step)) with
        | some e2 =>
          rw [deploy_tick_err _ f w e2 hg2 hc] at h ⊢
          obtain ⟨h1, h2⟩ := getElem?_snoc_ge _ _ _ _ hk h
          subst h1 h2
          rw [hc] at he
          exact ⟨by simp, by rw [he]⟩
        | none =>
          rw [deploy_tick_ok _ f w hg2 hc] at h ⊢
          by_cases hlt : w.calls.length < k
          · exact ih _ _ k inp err h (by simp; omega) he
          · have hk2 : k = w.calls.length := by omega
            subst hk2
            obtain ⟨_, sent, hs⟩ := deploy_calls rest
              { f with currentNewVersionPct := F64.add f.currentNewVersionPct f.step }
              { calls := w.calls ++ [splitInput f (F64.add f.currentNewVersionPct f.step)]
                stdout := w.stdout ++ [F64.add f.currentNewVersionPct f.step] }
            have hidx : ((w.calls ++ [splitInput f (F64.add f.currentNewVersionPct f.step)])
                ++ sent)[w.calls.length]? =
                some (splitInput f (F64.add f.currentNewVersionPct f.step)) := by
              rw [List.append_assoc, List.getElem?_append_right (le_refl _)]
              simp
            rw [hs, hidx] at h
            rw [← Option.some.inj h, hc] at he
            exact absurd he (by simp)

theorem le_trans_f64 (a b c : F64) (h1 : F64.le a b = true) (h2 : F64.le b c = true) :
    F64.le a c = true := by
  rw [F64.le_iff] at h1 h2 ⊢
  exact ⟨h1.1, h2.2.1, le_trans h1.2.2 h2.2.2⟩

theorem deploy_share_mono (evs : List Select) : ∀ (f : function) (w : World),
    F64.le F64.zero f.step = true → F64.le F64.zero f.currentNewVersionPct = true →
    (deploy evs f w).2.1.step = f.step ∧
    F64.le f.currentNewVersionPct (deploy evs f w).2.1.currentNewVersionPct = true ∧
    F64.le F64.zero (deploy evs f w).2.1.currentNewVersionPct = true := by
  have hrefl : ∀ c : F64, F64.le F64.zero c = true → F64.le c c = true := by
    intro c hc
    rw [F64.le_iff] at hc ⊢
    exact ⟨hc.2.1, hc.2.1, le_refl _⟩
  induction evs with
  | nil => intro f w _ h0; exact ⟨rfl, hrefl _ h0, h0⟩
  | cons ev rest ih =>
    intro f w hs h0
    cases ev with
    | ctxDone => exact ⟨rfl, hrefl _ h0, h0⟩
    | tickerC =>
      by_cases hg : F64.ge f.currentNewVersionPct (F64.sub F64.one f.step) = true
      · rw [deploy_tick_promote _ f w hg]
        exact ⟨rfl, hrefl _ h0, h0⟩
      · have hg2 : F64.ge f.currentNewVersionPct (F64.sub F64.one f.step) = false := by
          simpa using hg
        cases hc : f.awsClient w.calls.length
            (splitInput f (F64.add f.currentNewVersionPct f.step)) with
        | some err =>
          rw [deploy_tick_err _ f w err hg2 hc]
          exact ⟨rfl, hrefl _ h0, h0⟩
        | none =>
          rw [deploy_tick_ok _ f w hg2 hc]
          obtain ⟨a1, a2⟩ := F64.add_nonneg _ _ h0 hs
          obtain ⟨i1, i2, i3⟩ :=
            ih { f with currentNewVersionPct := F64.add f.currentNewVersionPct f.step }
              { calls := w.calls ++ [splitInput f (F64.add f.currentNewVersionPct f.step)]
                stdout := w.stdout ++ [F64.add f.currentNewVersionPct f.step] } hs a2
          exact ⟨i1, le_trans_f64 _ _ _ a1 i2, i3⟩

theorem getElem?_append_singleton_length {α : Type} (l more : List α) (x : α) :
    ((l ++ [x]) ++ more)[l.length]? = some x := by
  rw [List.append_assoc, List.getElem?_append_right (le_refl _)]
  simp

/-- The request a tick sends first: the cutover when the promotion check holds, the
partial split with the sum otherwise. -/
theorem deploy_tick_request (rest : List Select) (f : function) (w : World) :
    (F64.ge f.currentNewVersionPct (F64.sub F64.one f.step) = true ∧
      (deploy (.tickerC :: rest) f w).2.2.calls[w.calls.length]? = some (cutoverInput f)) ∨
    (F64.ge f.currentNewVersionPct (F64.sub F64.one f.step) = false ∧
      (deploy (.tickerC :: rest) f w).2.2.calls[w.calls.length]? =
        some (splitInput f (F64.add f.currentNewVersionPct f.step))) := by
  by_cases hg : F64.ge f.currentNewVersionPct (F64.sub F64.one f.step) = true
  · left
    rw [deploy_tick_promote _ f w hg]
    refine ⟨hg, ?_⟩
    have := getElem?_append_singleton_length w.calls [] (cutoverInput f)
    rw [List.append_nil] at this
    exact this
  · have hg2 : F64.ge f.currentNewVersionPct (F64.sub F64.one f.step) = false := by
      simpa using hg
    right
    refine ⟨hg2, ?_⟩
    cases hc : f.awsClient w.calls.length
        (splitInput f (F64.add f.currentNewVersionPct f.step)) with
    | some err =>
      rw [deploy_tick_err _ f w err hg2 hc]
      have := getElem?_append_singleton_length w.calls []
        (splitInput f (F64.add f.currentNewVersionPct f.step))
      rw [List.append_nil] at this
      exact this
    | none =>
      rw [deploy_tick_ok _ f w hg2 hc]
      obtain ⟨_, sent, hs⟩ := deploy_calls rest
        { f with currentNewVersionPct := F64.add f.currentNewVersionPct f.step }
        { calls := w.calls ++ [splitInput f (F64.add f.currentNewVersionPct f.step)]
          stdout := w.stdout ++ [F64.add f.currentNewVersionPct f.step] }
      rw [hs]
      exact getElem?_append_singleton_length _ _ _

theorem main_world (client : Client) (arn aliasName target : String) (step : F64)
    (ticks : Nat) :
    (main (.ok client) arn aliasName target step ticks).2 =
      (deploy (List.replicate ticks .tickerC) ⟨client, arn, aliasName, F64.zero, target, step⟩
        ⟨[], []⟩).2.2 ∧
    (main (.ok client) arn aliasName target step ticks).1 =
      (match (deploy (List.replicate ticks .tickerC)
          ⟨client, arn, aliasName, F64.zero, target, step⟩ ⟨[], []⟩).1 with
        | .waiting => Exit.running
        | .returned none => Exit.exited
        | .returned (some err) => Exit.panicked err) := by
  unfold main
  simp only [NewFunction]
  generalize deploy (List.replicate ticks .tickerC)
    ⟨client, arn, aliasName, F64.zero, target, step⟩ ⟨[], []⟩ = r
  obtain ⟨o, f1, w1⟩ := r
  cases o with
  | waiting => exact ⟨rfl, rfl⟩
  | returned e =>
    cases e with
    | none => exact ⟨rfl, rfl⟩
    | some err => exact ⟨rfl, rfl⟩

/-! ### The default step 0.1, tick by tick -/

theorem tenth_threshold : F64.sub F64.one F64.tenth = F64.ofBits 0x3FECCCCCCCCCCCCD := by
  decide

theorem tenth_add_0 : F64.add (F64.ofBits 0x0000000000000000) F64.tenth = F64.ofBits 0x3FB999999999999A := by
  decide

theorem tenth_ge_0 :
    F64.ge (F64.ofBits 0x0000000000000000) (F64.ofBits 0x3FECCCCCCCCCCCCD) = false := by
  decide

theorem tenth_add_1 : F64.add (F64.ofBits 0x3FB999999999999A) F64.tenth = F64.ofBits 0x3FC999999999999A := by
  decide

theorem tenth_ge_1 :
    F64.ge (F64.ofBits 0x3FB999999999999A) (F64.ofBits 0x3FECCCCCCCCCCCCD) = false := by
  decide

theorem tenth_add_2 : F64.add (F64.ofBits 0x3FC999999999999A) F64.tenth = F64.ofBits 0x3FD3333333333334 := by
  decide

theorem tenth_ge_2 :
    F64.ge (F64.ofBits 0x3FC999999999999A) (F64.ofBits 0x3FECCCCCCCCCCCCD) = false := by
  decide

theorem tenth_add_3 : F64.add (F64.ofBits 0x3FD3333333333334) F64.tenth = F64.ofBits 0x3FD999999999999A := by
  decide

theorem tenth_ge_3 :
    F64.ge (F64.ofBits 0x3FD3333333333334) (F64.ofBits 0x3FECCCCCCCCCCCCD) = false := by
  decide

theorem tenth_add_4 : F64.add (F64.ofBits 0x3FD999999999999A) F64.tenth = F64.ofBits 0x3FE0000000000000 := by
  decide

theorem tenth_ge_4 :
    F64.ge (F64.ofBits 0x3FD999999999999A) (F64.ofBits 0x3FECCCCCCCCCCCCD) = false := by
  decide

theorem tenth_add_5 : F64.add (F64.ofBits 0x3FE0000000000000) F64.tenth = F64.ofBits 0x3FE3333333333333 := by
  decide

theorem tenth_ge_5 :
    F64.ge (F64.ofBits 0x3FE0000000000000) (F64.ofBits 0x3FECCCCCCCCCCCCD) = false := by
  decide

theorem tenth_add_6 : F64.add (F64.ofBits 0x3FE3333333333333) F64.tenth = F64.ofBits 0x3FE6666666666666 := by
  decide

theorem tenth_ge_6 :
    F64.ge (F64.ofBits 0x3FE3333333333333) (F64.ofBits 0x3FECCCCCCCCCCCCD) = false := by
  decide

theorem tenth_add_7 : F64.add (F64.ofBits 0x3FE6666666666666) F64.tenth = F64.ofBits 0x3FE9999999999999 := by
  decide

theorem tenth_ge_7 :
    F64.ge (F64.ofBits 0x3FE6666666666666) (F64.ofBits 0x3FECCCCCCCCCCCCD) = false := by
  decide

theorem tenth_add_8 : F64.add (F64.ofBits 0x3FE9999999999999) F64.tenth = F64.ofBits 0x3FECCCCCCCCCCCCC := by
  decide

theorem tenth_ge_8 :
    F64.ge (F64.ofBits 0x3FE9999999999999) (F64.ofBits 0x3FECCCCCCCCCCCCD) = false := by
  decide

theorem tenth_add_9 : F64.add (F64.ofBits 0x3FECCCCCCCCCCCCC) F64.tenth = F64.ofBits 0x3FEFFFFFFFFFFFFF := by
  decide

theorem tenth_ge_9 :
    F64.ge (F64.ofBits 0x3FECCCCCCCCCCCCC) (F64.ofBits 0x3FECCCCCCCCCCCCD) = false := by
  decide

theorem tenth_ge_10 :
    F64.ge (F64.ofBits 0x3FEFFFFFFFFFFFFF) (F64.ofBits 0x3FECCCCCCCCCCCCD) = true := by
  decide

theorem zero_eq_ofBits : F64.zero = F64.ofBits 0x0000000000000000 := by
  decide

theorem tenth_ramp_values :
    rampList F64.tenth 0 10 =
      [F64.ofBits 0x3FB999999999999A,
        F64.ofBits 0x3FC999999999999A,
        F64.ofBits 0x3FD3333333333334,
        F64.ofBits 0x3FD999999999999A,
        F64.ofBits 0x3FE0000000000000,
        F64.ofBits 0x3FE3333333333333,
        F64.ofBits 0x3FE6666666666666,
        F64.ofBits 0x3FE9999999999999,
        F64.ofBits 0x3FECCCCCCCCCCCCC,
        F64.ofBits 0x3FEFFFFFFFFFFFFF] := by
  simp [rampList, rampShare, zero_eq_ofBits, tenth_add_0, tenth_add_1, tenth_add_2,
    tenth_add_3, tenth_add_4, tenth_add_5, tenth_add_6, tenth_add_7, tenth_add_8, tenth_add_9]

theorem tenth_ramp_guard (i : Nat) (hi : i < 10) :
    F64.ge (rampShare F64.tenth i) (F64.sub F64.one F64.tenth) = false := by
  interval_cases i <;>
  simp [rampShare, zero_eq_ofBits, tenth_threshold, tenth_add_0, tenth_ge_0, tenth_add_1,
    tenth_ge_1, tenth_add_2, tenth_ge_2, tenth_add_3, tenth_ge_3, tenth_add_4, tenth_ge_4,
    tenth_add_5, tenth_ge_5, tenth_add_6, tenth_ge_6, tenth_add_7, tenth_ge_7, tenth_add_8,
    tenth_ge_8, tenth_ge_9]

theorem tenth_ramp_done :
    F64.ge (rampShare F64.tenth 10) (F64.sub F64.one F64.tenth) = true := by
  simp [rampShare, zero_eq_ofBits, tenth_threshold, tenth_add_0, tenth_add_1,
    tenth_add_2, tenth_add_3, tenth_add_4, tenth_add_5, tenth_add_6, tenth_add_7, tenth_add_8,
    tenth_add_9, tenth_ge_10]

/-! ### The step -0.1, tick by tick -/

theorem negTenth_add_0 :
    F64.add (F64.ofBits 0x0000000000000000) F64.negTenth = F64.ofBits 0xBFB999999999999A := by
  decide

theorem negTenth_add_1 :
    F64.add (F64.ofBits 0xBFB999999999999A) F64.negTenth = F64.ofBits 0xBFC999999999999A := by
  decide

theorem negTenth_add_2 :
    F64.add (F64.ofBits 0xBFC999999999999A) F64.negTenth = F64.ofBits 0xBFD3333333333334 := by
  decide

theorem negTenth_add_3 :
    F64.add (F64.ofBits 0xBFD3333333333334) F64.negTenth = F64.ofBits 0xBFD999999999999A := by
  decide

theorem negTenth_add_4 :
    F64.add (F64.ofBits 0xBFD999999999999A) F64.negTenth = F64.ofBits 0xBFE0000000000000 := by
  decide

theorem negTenth_add_5 :
    F64.add (F64.ofBits 0xBFE0000000000000) F64.negTenth = F64.ofBits 0xBFE3333333333333 := by
  decide

theorem negTenth_add_6 :
    F64.add (F64.ofBits 0xBFE3333333333333) F64.negTenth = F64.ofBits 0xBFE6666666666666 := by
  decide

theorem negTenth_add_7 :
    F64.add (F64.ofBits 0xBFE6666666666666) F64.negTenth = F64.ofBits 0xBFE9999999999999 := by
  decide

theorem negTenth_add_8 :
    F64.add (F64.ofBits 0xBFE9999999999999) F64.negTenth = F64.ofBits 0xBFECCCCCCCCCCCCC := by
  decide

theorem negTenth_add_9 :
    F64.add (F64.ofBits 0xBFECCCCCCCCCCCCC) F64.negTenth = F64.ofBits 0xBFEFFFFFFFFFFFFF := by
  decide

theorem negTenth_ramp_share :
    rampShare F64.negTenth 10 = F64.ofBits 0xBFEFFFFFFFFFFFFF := by
  simp [rampShare, zero_eq_ofBits, negTenth_add_0, negTenth_add_1, negTenth_add_2,
    negTenth_add_3, negTenth_add_4, negTenth_add_5, negTenth_add_6, negTenth_add_7,
    negTenth_add_8, negTenth_add_9]

/-! ## The claims -/

/-- C1 (the claim fails on the code): with the configuration loaded, `NewFunction`
accepts the step `-0.5` and returns a controller holding it, and `main` then starts the
deploy loop, whose first tick sends a partial-split request with the fraction `-0.5`. -/
theorem NewFunction_accepts_negative_step :
    F64.le F64.negHalf F64.zero = true ∧
    NewFunction (.ok okClient) "arn" "live" "2" F64.negHalf =
      .ok ⟨okClient, "arn", "live", F64.zero, "2", F64.negHalf⟩ ∧
    main (.ok okClient) "arn" "live" "2" F64.negHalf 1 =
      (.running,
        ⟨[{ FunctionName := some "arn", Name := some "live", FunctionVersion := none,
            RoutingConfig := some { AdditionalVersionWeights := [("2", F64.negHalf)] } }],
          [F64.negHalf]⟩) :=
  ⟨by decide, rfl, by rfl⟩

/-- C1 (amended): `NewFunction` does not look at the step. When loading the default
configuration fails it returns that error and `main` panics with it before any request
is sent. Otherwise, for every step, it returns a controller with the loaded client, the
given arn, alias, version and step, and `currentNewVersionPct = 0`; `main` runs the
deploy loop on that controller and reports its outcome; and the first tick sends a
request: the full cutover when `0 >= 1 - step`, otherwise a partial split with the
fraction `0 + step`. -/
theorem NewFunction_and_main_ignore_step (arn aliasName newVersion : String) (step : F64) :
    (∀ err, NewFunction (.error err) arn aliasName newVersion step = .error err) ∧
    (∀ err ticks,
      main (.error err) arn aliasName newVersion step ticks = (.panicked err, ⟨[], []⟩)) ∧
    (∀ client, NewFunction (.ok client) arn aliasName newVersion step =
      .ok ⟨client, arn, aliasName, F64.zero, newVersion, step⟩) ∧
    (∀ client ticks,
      (main (.ok client) arn aliasName newVersion step ticks).2 =
        (deploy (List.replicate ticks .tickerC)
          ⟨client, arn, aliasName, F64.zero, newVersion, step⟩ ⟨[], []⟩).2.2 ∧
      (main (.ok client) arn aliasName newVersion step ticks).1 =
        (match (deploy (List.replicate ticks .tickerC)
            ⟨client, arn, aliasName, F64.zero, newVersion, step⟩ ⟨[], []⟩).1 with
          | .waiting => Exit.running
          | .returned none => Exit.exited
          | .returned (some err) => Exit.panicked err)) ∧
    (∀ client ticks,
      (F64.ge F64.zero (F64.sub F64.one step) = true ∧
        (main (.ok client) arn aliasName newVersion step (ticks + 1)).2.calls[0]? =
          some (cutoverInput ⟨client, arn, aliasName, F64.zero, newVersion, step⟩)) ∨
      (F64.ge F64.zero (F64.sub F64.one step) = false ∧
        (main (.ok client) arn aliasName newVersion step (ticks + 1)).2.calls[0]? =
          some (splitInput ⟨client, arn, aliasName, F64.zero, newVersion, step⟩
            (F64.add F64.zero step)))) := by
  refine ⟨fun _ => rfl, fun _ _ => rfl, fun _ => rfl,
    fun client ticks => main_world client arn aliasName newVersion step ticks,
    fun client ticks => ?_⟩
  rw [(main_world client arn aliasName newVersion step (ticks + 1)).1, List.replicate_succ]
  exact deploy_tick_request (List.replicate ticks .tickerC)
    ⟨client, arn, aliasName, F64.zero, newVersion, step⟩ ⟨[], []⟩

/-- C2: when the `UpdateAlias` call of `adjustTrafficSplit` fails with `err`, the
function returns `err` and the controller is exactly as before: `currentNewVersionPct`
and every other field are unchanged (the request itself has been sent). -/
theorem adjustTrafficSplit_failure_freezes_state (f : function) (w : World) (err : Error)
    (h : f.awsClient w.calls.length
      { FunctionName := some f.arn, Name := some f.aliasName, FunctionVersion := none,
        RoutingConfig := some { AdditionalVersionWeights :=
          [(f.newVersion, F64.add f.currentNewVersionPct f.step)] } } = some err) :
    (adjustTrafficSplit f w).1 = some err ∧
    (adjustTrafficSplit f w).2.1 = f ∧
    (adjustTrafficSplit f w).2.1.currentNewVersionPct = f.currentNewVersionPct := by
  rw [adjustTrafficSplit_err f w err h]
  exact ⟨rfl, rfl, rfl⟩

/-- C2 at a controller whose first request is denied. -/
theorem adjustTrafficSplit_failure_freezes_state_witness :
    (adjustTrafficSplit ⟨failAt 0 "AccessDenied", "arn", "live", F64.quarter, "2", F64.quarter⟩
      ⟨[], []⟩).1 = some "AccessDenied" ∧
    (adjustTrafficSplit ⟨failAt 0 "AccessDenied", "arn", "live", F64.quarter, "2", F64.quarter⟩
      ⟨[], []⟩).2.1 = ⟨failAt 0 "AccessDenied", "arn", "live", F64.quarter, "2", F64.quarter⟩ ∧
    (adjustTrafficSplit ⟨failAt 0 "AccessDenied", "arn", "live", F64.quarter, "2", F64.quarter⟩
      ⟨[], []⟩).2.1.currentNewVersionPct = F64.quarter :=
  adjustTrafficSplit_failure_freezes_state
    ⟨failAt 0 "AccessDenied", "arn", "live", F64.quarter, "2", F64.quarter⟩ ⟨[], []⟩
    "AccessDenied" rfl

/-- C3 (the claim fails on the code): at the default step 0.1, from the share 0.2
that two ticks leave (`0x3FC999999999999A`), a successful `adjustTrafficSplit` commits
`0x3FD3333333333334` (0.30000000000000004): the share did not grow by the step, neither
exactly nor as the `float64` difference, which is `0x3FB999999999999C`. And with the
step `-0.5`, which the program accepts, a successful call from 0 commits `-0.5`, so the
share went down. -/
theorem adjustTrafficSplit_growth_is_not_the_step :
    (F64.lt F64.zero F64.tenth = true ∧ F64.le F64.tenth F64.one = true ∧
      adjustTrafficSplit
          ⟨okClient, "arn", "live", F64.ofBits 0x3FC999999999999A, "2", F64.tenth⟩ ⟨[], []⟩ =
        (none, ⟨okClient, "arn", "live", F64.ofBits 0x3FD3333333333334, "2", F64.tenth⟩,
          ⟨[{ FunctionName := some "arn", Name := some "live", FunctionVersion := none,
              RoutingConfig := some
                { AdditionalVersionWeights := [("2", F64.ofBits 0x3FD3333333333334)] } }],
            []⟩) ∧
      F64.toInt (F64.ofBits 0x3FD3333333333334) - F64.toInt (F64.ofBits 0x3FC999999999999A)
        ≠ F64.toInt F64.tenth ∧
      F64.sub (F64.ofBits 0x3FD3333333333334) (F64.ofBits 0x3FC999999999999A) =
        F64.ofBits 0x3FB999999999999C ∧
      F64.ofBits 0x3FB999999999999C ≠ F64.tenth) ∧
    (adjustTrafficSplit ⟨okClient, "arn", "live", F64.zero, "2", F64.negHalf⟩ ⟨[], []⟩ =
        (none, ⟨okClient, "arn", "live", F64.negHalf, "2", F64.negHalf⟩,
          ⟨[{ FunctionName := some "arn", Name := some "live", FunctionVersion := none,
              RoutingConfig := some { AdditionalVersionWeights := [("2", F64.negHalf)] } }],
            []⟩) ∧
      F64.lt F64.negHalf F64.zero = true ∧ F64.le F64.zero F64.negHalf = false) := by
  refine ⟨⟨by decide, by decide, ?_, by decide, by decide, by decide⟩,
    by rfl, by decide, by decide⟩
  simp [adjustTrafficSplit, UpdateAlias, okClient, tenth_add_2]

/-- C3 (amended): a successful `adjustTrafficSplit` sends one partial-split request for
the configured function and alias whose only weight maps the candidate version to the
`float64` sum `currentNewVersionPct + step`, and commits that same sum (which need not
differ from the old share by exactly the step). When the step is `>= 0` the share does
not go down: from a share `>= 0` the committed share is at least the old one and again
`>= 0`; over any run of `deploy` from such a state, whatever the ticks, cancellations and
request outcomes, the share at the end is at least the share at the start; and along
successful ramp steps from 0 each share is at most the next. -/
theorem adjustTrafficSplit_success_commits_sum (f : function) (w : World)
    (h : f.awsClient w.calls.length
      { FunctionName := some f.arn, Name := some f.aliasName, FunctionVersion := none,
        RoutingConfig := some { AdditionalVersionWeights :=
          [(f.newVersion, F64.add f.currentNewVersionPct f.step)] } } = none) :
    adjustTrafficSplit f w =
      (none, { f with currentNewVersionPct := F64.add f.currentNewVersionPct f.step },
        { w with calls := w.calls ++
            [{ FunctionName := some f.arn, Name := some f.aliasName, FunctionVersion := none,
               RoutingConfig := some { AdditionalVersionWeights :=
                 [(f.newVersion, F64.add f.currentNewVersionPct f.step)] } }] }) ∧
    (F64.le F64.zero f.step = true → F64.le F64.zero f.currentNewVersionPct = true →
      F64.le f.currentNewVersionPct (F64.add f.currentNewVersionPct f.step) = true ∧
      F64.le F64.zero (F64.add f.currentNewVersionPct f.step) = true) ∧
    (F64.le F64.zero f.step = true → F64.le F64.zero f.currentNewVersionPct = true →
      ∀ (evs : List Select) (w0 : World),
        F64.le f.currentNewVersionPct (deploy evs f w0).2.1.currentNewVersionPct = true ∧
        F64.le F64.zero (deploy evs f w0).2.1.currentNewVersionPct = true) ∧
    (F64.le F64.zero f.step = true →
      ∀ n, F64.le (rampShare f.step n) (rampShare f.step (n + 1)) = true) := by
  refine ⟨adjustTrafficSplit_ok f w h, fun hs hc => F64.add_nonneg _ _ hc hs,
    fun hs hc evs w0 => (deploy_share_mono evs f w0 hs hc).2, fun hs n => ?_⟩
  exact (F64.add_nonneg _ _ (rampShare_nonneg f.step hs n) hs).1

/-- C3 (amended) at the fresh controller with step 0.25. -/
theorem adjustTrafficSplit_success_commits_sum_witness :
    adjustTrafficSplit quarterController ⟨[], []⟩ =
      (none, ⟨okClient, "arn", "live", F64.add F64.zero F64.quarter, "2", F64.quarter⟩,
        ⟨[{ FunctionName := some "arn", Name := some "live", FunctionVersion := none,
            RoutingConfig := some
              { AdditionalVersionWeights := [("2", F64.add F64.zero F64.quarter)] } }],
          []⟩) ∧
    (F64.le F64.zero F64.quarter = true → F64.le F64.zero F64.zero = true →
      F64.le F64.zero (F64.add F64.zero F64.quarter) = true ∧
      F64.le F64.zero (F64.add F64.zero F64.quarter) = true) ∧
    (F64.le F64.zero F64.quarter = true → F64.le F64.zero F64.zero = true →
      ∀ (evs : List Select) (w0 : World),
        F64.le F64.zero (deploy evs quarterController w0).2.1.currentNewVersionPct = true ∧
        F64.le F64.zero (deploy evs quarterController w0).2.1.currentNewVersionPct = true) ∧
    (F64.le F64.zero F64.quarter = true →
      ∀ n, F64.le (rampShare F64.quarter n) (rampShare F64.quarter (n + 1)) = true) :=
  adjustTrafficSplit_success_commits_sum quarterController ⟨[], []⟩ rfl

/-- C4 (evaluation of the code at the default step): with `step = 0.1` and every
request succeeding, ten ticks send ten partial-split requests and leave the loop
running; the tenth carries the fraction `0x3FEFFFFFFFFFFFFF` (0.9999999999999999),
because after nine ramps the share is `0x3FECCCCCCCCCCCCC` (0.8999999999999999), below
`1 - 0.1 = 0x3FECCCCCCCCCCCCD` (0.9). The cutover is sent on the eleventh tick. The
count `ceil(1/step) - 1` is 9 for this step. -/
theorem main_default_step_ramps_ten_times (arn aliasName target : String) :
    main (.ok okClient) arn aliasName target F64.tenth 10 =
      (.running,
        ⟨(rampList F64.tenth 0 10).map
            (splitInput ⟨okClient, arn, aliasName, F64.zero, target, F64.tenth⟩),
          rampList F64.tenth 0 10⟩) ∧
    main (.ok okClient) arn aliasName target F64.tenth (10 + 1) =
      (.exited,
        ⟨(rampList F64.tenth 0 10).map
            (splitInput ⟨okClient, arn, aliasName, F64.zero, target, F64.tenth⟩) ++
            [cutoverInput ⟨okClient, arn, aliasName, F64.zero, target, F64.tenth⟩],
          rampList F64.tenth 0 10⟩) ∧
    rampList F64.tenth 0 10 =
      [F64.ofBits 0x3FB999999999999A,
        F64.ofBits 0x3FC999999999999A,
        F64.ofBits 0x3FD3333333333334,
        F64.ofBits 0x3FD999999999999A,
        F64.ofBits 0x3FE0000000000000,
        F64.ofBits 0x3FE3333333333333,
        F64.ofBits 0x3FE6666666666666,
        F64.ofBits 0x3FE9999999999999,
        F64.ofBits 0x3FECCCCCCCCCCCCC,
        F64.ofBits 0x3FEFFFFFFFFFFFFF] ∧
    F64.sub F64.one F64.tenth = F64.ofBits 0x3FECCCCCCCCCCCCD ∧
    F64.ge (F64.ofBits 0x3FECCCCCCCCCCCCC) (F64.ofBits 0x3FECCCCCCCCCCCCD) = false ∧
    (F64.toInt F64.one + F64.toInt F64.tenth - 1) / F64.toInt F64.tenth - 1 = 9 :=
  ⟨main_ramp_running okClient arn aliasName target F64.tenth 10 (fun _ _ => rfl)
      tenth_ramp_guard,
    main_ramp_exited okClient arn aliasName target F64.tenth 10 (fun _ _ => rfl)
      tenth_ramp_guard tenth_ramp_done,
    tenth_ramp_values, tenth_threshold, tenth_ge_9, by decide⟩

/-- C5: for a step with `0 < step <= 1`, every state `deploy` reaches from
`currentNewVersionPct = 0`, whatever the ticks, cancellations and request outcomes,
has `0 <= currentNewVersionPct <= 1`. Whenever the loop, waiting in a reached state,
takes a tick, the request that tick sends is either the cutover, and then the share is
`>= 1 - step`, or the partial split built by `adjustTrafficSplit`, and then the share
before the call is below `1 - step`, the exact sum share + step is below 1 and the
`float64` sum that is sent is in `[0, 1]`. Every fraction in a request sent during the
run lies in `[0, 1]`. -/
theorem deploy_no_overshoot (evs : List Select) (f : function) (w : World)
    (hs0 : F64.lt F64.zero f.step = true) (hs1 : F64.le f.step F64.one = true)
    (h0 : f.currentNewVersionPct = F64.zero) :
    F64.le F64.zero (deploy evs f w).2.1.currentNewVersionPct = true ∧
    F64.le (deploy evs f w).2.1.currentNewVersionPct F64.one = true ∧
    (F64.ge (deploy evs f w).2.1.currentNewVersionPct (F64.sub F64.one f.step) = false →
      F64.lt (deploy evs f w).2.1.currentNewVersionPct (F64.sub F64.one f.step) = true ∧
      F64.toInt (deploy evs f w).2.1.currentNewVersionPct + F64.toInt f.step
        < F64.toInt F64.one ∧
      F64.le (F64.add (deploy evs f w).2.1.currentNewVersionPct f.step) F64.one = true) ∧
    (∃ sent, (deploy evs f w).2.2.calls = w.calls ++ sent ∧
      ∀ inp ∈ sent, ∀ cfg, inp.RoutingConfig = some cfg →
        ∀ p ∈ cfg.AdditionalVersionWeights,
          F64.le F64.zero p.2 = true ∧ F64.le p.2 F64.one = true) ∧
    (∀ (pre rest : List Select) (f1 : function) (w1 : World),
      deploy pre f w = (.waiting, f1, w1) →
      ((deploy (pre ++ .tickerC :: rest) f w).2.2.calls[w1.calls.length]? =
          some (cutoverInput f1) ∧
        F64.ge f1.currentNewVersionPct (F64.sub F64.one f.step) = true) ∨
      ((deploy (pre ++ .tickerC :: rest) f w).2.2.calls[w1.calls.length]? =
          some (splitInput f1 (F64.add f1.currentNewVersionPct f.step)) ∧
        F64.lt f1.currentNewVersionPct (F64.sub F64.one f.step) = true ∧
        F64.toInt f1.currentNewVersionPct + F64.toInt f.step < F64.toInt F64.one ∧
        F64.le F64.zero (F64.add f1.currentNewVersionPct f.step) = true ∧
        F64.le (F64.add f1.currentNewVersionPct f.step) F64.one = true)) := by
  have hz : F64.le F64.zero f.currentNewVersionPct = true := by rw [h0]; rfl
  have ho : F64.le f.currentNewVersionPct F64.one = true := by rw [h0]; rfl
  obtain ⟨_, i2, i3, i4⟩ := deploy_inv evs f w hs0 hs1 hz ho
  refine ⟨i2, i3, fun hg => ?_, i4, fun pre rest f1 w1 hpre => ?_⟩
  · obtain ⟨j1, j2, j3, _⟩ :=
      F64.add_below_threshold (deploy evs f w).2.1.currentNewVersionPct f.step hs0 hs1 i2 hg
    exact ⟨j1, j2, j3⟩
  · obtain ⟨k1, k2, _, _⟩ := deploy_inv pre f w hs0 hs1 hz ho
    rw [hpre] at k1 k2
    have hstep : f1.step = f.step := k1
    have hshare : F64.le F64.zero f1.currentNewVersionPct = true := k2
    rw [deploy_append pre _ f w f1 w1 hpre]
    rcases deploy_tick_request rest f1 w1 with ⟨hg, hreq⟩ | ⟨hg, hreq⟩
    · left
      rw [hstep] at hg
      exact ⟨hreq, hg⟩
    · right
      rw [hstep] at hg hreq
      obtain ⟨j1, j2, j3, j4⟩ :=
        F64.add_below_threshold f1.currentNewVersionPct f.step hs0 hs1 hshare hg
      exact ⟨hreq, j1, j2, j4, j3⟩

/-- C5 at the fresh controller with step 0.25 after two ticks. -/
theorem deploy_no_overshoot_witness :
    F64.le F64.zero
      (deploy [.tickerC, .tickerC] quarterController ⟨[], []⟩).2.1.currentNewVersionPct = true ∧
    F64.le (deploy [.tickerC, .tickerC] quarterController ⟨[], []⟩).2.1.currentNewVersionPct
      F64.one = true ∧
    (F64.ge (deploy [.tickerC, .tickerC] quarterController ⟨[], []⟩).2.1.currentNewVersionPct
        (F64.sub F64.one quarterController.step) = false →
      F64.lt (deploy [.tickerC, .tickerC] quarterController ⟨[], []⟩).2.1.currentNewVersionPct
        (F64.sub F64.one quarterController.step) = true ∧
      F64.toInt (deploy [.tickerC, .tickerC] quarterController ⟨[], []⟩).2.1.currentNewVersionPct
        + F64.toInt quarterController.step < F64.toInt F64.one ∧
      F64.le (F64.add
        (deploy [.tickerC, .tickerC] quarterController ⟨[], []⟩).2.1.currentNewVersionPct
        quarterController.step) F64.one = true) ∧
    (∃ sent, (deploy [.tickerC, .tickerC] quarterController ⟨[], []⟩).2.2.calls =
        (⟨[], []⟩ : World).calls ++ sent ∧
      ∀ inp ∈ sent, ∀ cfg, inp.RoutingConfig = some cfg →
        ∀ p ∈ cfg.AdditionalVersionWeights,
          F64.le F64.zero p.2 = true ∧ F64.le p.2 F64.one = true) ∧
    (∀ (pre rest : List Select) (f1 : function) (w1 : World),
      deploy pre quarterController ⟨[], []⟩ = (.waiting, f1, w1) →
      ((deploy (pre ++ .tickerC :: rest) quarterController ⟨[], []⟩).2.2.calls[w1.calls.length]?
          = some (cutoverInput f1) ∧
        F64.ge f1.currentNewVersionPct (F64.sub F64.one quarterController.step) = true) ∨
      ((deploy (pre ++ .tickerC :: rest) quarterController ⟨[], []⟩).2.2.calls[w1.calls.length]?
          = some (splitInput f1 (F64.add f1.currentNewVersionPct quarterController.step)) ∧
        F64.lt f1.currentNewVersionPct (F64.sub F64.one quarterController.step) = true ∧
        F64.toInt f1.currentNewVersionPct + F64.toInt quarterController.step
          < F64.toInt F64.one ∧
        F64.le F64.zero (F64.add f1.currentNewVersionPct quarterController.step) = true ∧
        F64.le (F64.add f1.currentNewVersionPct quarterController.step) F64.one = true)) :=
  deploy_no_overshoot [.tickerC, .tickerC] quarterController ⟨[], []⟩
    (by decide) (by decide) rfl

/-- C6: on a tick that finds `currentNewVersionPct >= 1 - step`, `deploy` sends exactly
one request, the full cutover (`FunctionVersion` the candidate version, an empty routing
configuration, the same function and alias), leaves the controller unchanged and
returns at once: nil when the request succeeded, the request's error when it failed,
whatever ticks would follow. -/
theorem deploy_terminal_tick (rest : List Select) (f : function) (w : World)
    (h : F64.ge f.currentNewVersionPct (F64.sub F64.one f.step) = true) :
    deploy (.tickerC :: rest) f w =
      (.returned (f.awsClient w.calls.length
          { FunctionName := some f.arn, Name := some f.aliasName,
            FunctionVersion := some f.newVersion,
            RoutingConfig := some { AdditionalVersionWeights := [] } }),
        f,
        { calls := w.calls ++
            [{ FunctionName := some f.arn, Name := some f.aliasName,
               FunctionVersion := some f.newVersion,
               RoutingConfig := some { AdditionalVersionWeights := [] } }]
          stdout := w.stdout }) :=
  deploy_tick_promote rest f w h

/-- C6 at a controller with share 1 and step 0.25 whose cutover request is throttled:
the error comes back and the second tick is not used. -/
theorem deploy_terminal_tick_witness :
    deploy [.tickerC, .tickerC] ⟨failAt 0 "Throttled", "arn", "live", F64.one, "2", F64.quarter⟩
        ⟨[], []⟩ =
      (.returned (some "Throttled"),
        ⟨failAt 0 "Throttled", "arn", "live", F64.one, "2", F64.quarter⟩,
        ⟨[{ FunctionName := some "arn", Name := some "live", FunctionVersion := some "2",
            RoutingConfig := some { AdditionalVersionWeights := [] } }], []⟩) :=
  deploy_terminal_tick [.tickerC] ⟨failAt 0 "Throttled", "arn", "live", F64.one, "2", F64.quarter⟩
    ⟨[], []⟩ (by decide)

/-- C7: with `step = 0.25` and every request succeeding, `deploy` from
`currentNewVersionPct = 0` sends partial-split requests with the fractions 0.25, 0.5 and
0.75, in that order, then one full-cutover request, four requests in all, and returns
nil on the fourth tick. -/
theorem deploy_quarter_run (arn aliasName target : String) (rest : List Select) :
    deploy (.tickerC :: .tickerC :: .tickerC :: .tickerC :: rest)
        ⟨okClient, arn, aliasName, F64.zero, target, F64.quarter⟩ ⟨[], []⟩ =
      (.returned none,
        ⟨okClient, arn, aliasName, F64.ofBits 0x3FE8000000000000, target, F64.quarter⟩,
        ⟨[{ FunctionName := some arn, Name := some aliasName, FunctionVersion := none,
            RoutingConfig := some
              { AdditionalVersionWeights := [(target, F64.ofBits 0x3FD0000000000000)] } },
          { FunctionName := some arn, Name := some aliasName, FunctionVersion := none,
            RoutingConfig := some
              { AdditionalVersionWeights := [(target, F64.ofBits 0x3FE0000000000000)] } },
          { FunctionName := some arn, Name := some aliasName, FunctionVersion := none,
            RoutingConfig := some
              { AdditionalVersionWeights := [(target, F64.ofBits 0x3FE8000000000000)] } },
          { FunctionName := some arn, Name := some aliasName, FunctionVersion := some target,
            RoutingConfig := some { AdditionalVersionWeights := [] } }],
          [F64.ofBits 0x3FD0000000000000, F64.ofBits 0x3FE0000000000000,
            F64.ofBits 0x3FE8000000000000]⟩) := by
  have g0 : F64.ge F64.zero (F64.sub F64.one F64.quarter) = false := by decide
  have a1 : F64.add F64.zero F64.quarter = F64.ofBits 0x3FD0000000000000 := by decide
  have g1 : F64.ge (F64.ofBits 0x3FD0000000000000) (F64.sub F64.one F64.quarter) = false := by
    decide
  have a2 : F64.add (F64.ofBits 0x3FD0000000000000) F64.quarter =
      F64.ofBits 0x3FE0000000000000 := by decide
  have g2 : F64.ge (F64.ofBits 0x3FE0000000000000) (F64.sub F64.one F64.quarter) = false := by
    decide
  have a3 : F64.add (F64.ofBits 0x3FE0000000000000) F64.quarter =
      F64.ofBits 0x3FE8000000000000 := by decide
  have g3 : F64.ge (F64.ofBits 0x3FE8000000000000) (F64.sub F64.one F64.quarter) = true := by
    decide
  simp [deploy, adjustTrafficSplit, promoteNewVersion, UpdateAlias, okClient,
    g0, a1, g1, a2, g2, a3, g3]

/-- C8: with `step = 0.1`, when the first two requests succeed and the third fails,
`deploy` returns the third request's error on the third tick with
`currentNewVersionPct = 0.2` (`0x3FC999999999999A`), three requests sent and two shares
printed, whatever ticks would follow. In general, whenever a request that `deploy` sent
failed, it is the last request sent and `deploy` has returned that request's error. -/
theorem deploy_aborts_on_first_failure :
    (∀ (client : Client) (arn aliasName target : String) (err : Error) (rest : List Select),
      (∀ inp, client 0 inp = none) → (∀ inp, client 1 inp = none) →
      (∀ inp, client 2 inp = some err) →
      deploy (.tickerC :: .tickerC :: .tickerC :: rest)
          ⟨client, arn, aliasName, F64.zero, target, F64.tenth⟩ ⟨[], []⟩ =
        (.returned (some err),
          ⟨client, arn, aliasName, F64.ofBits 0x3FC999999999999A, target, F64.tenth⟩,
          ⟨[F64.ofBits 0x3FB999999999999A, F64.ofBits 0x3FC999999999999A,
              F64.ofBits 0x3FD3333333333334].map
              (splitInput ⟨client, arn, aliasName, F64.zero, target, F64.tenth⟩),
            [F64.ofBits 0x3FB999999999999A, F64.ofBits 0x3FC999999999999A]⟩)) ∧
    (∀ (evs : List Select) (f : function) (w : World) (k : Nat) (inp : UpdateAliasInput)
        (err : Error),
      (deploy evs f w).2.2.calls[k]? = some inp → w.calls.length ≤ k →
      f.awsClient k inp = some err →
      (deploy evs f w).2.2.calls.length = k + 1 ∧
        (deploy evs f w).1 = .returned (some err)) := by
  refine ⟨fun client arn aliasName target err rest h0 h1 h2 => ?_, deploy_failed_call_is_last⟩
  simp [deploy, adjustTrafficSplit, UpdateAlias, h0, h1, h2, splitInput, zero_eq_ofBits,
    tenth_threshold, tenth_add_0, tenth_ge_0, tenth_add_1, tenth_ge_1, tenth_add_2, tenth_ge_2]

/-- C8 at the controller whose third request is throttled: four ticks are offered, the
third request is the last one sent and its error is returned. -/
theorem deploy_aborts_on_first_failure_witness :
    (deploy [.tickerC, .tickerC, .tickerC, .tickerC] faultyController ⟨[], []⟩).2.2.calls.length
      = 2 + 1 ∧
    (deploy [.tickerC, .tickerC, .tickerC, .tickerC] faultyController ⟨[], []⟩).1 =
      .returned (some "Throttled") :=
  deploy_aborts_on_first_failure.2 [.tickerC, .tickerC, .tickerC, .tickerC] faultyController
    ⟨[], []⟩ 2 (splitInput faultyController (F64.ofBits 0x3FD3333333333334)) "Throttled"
    (by
      unfold faultyController
      rw [deploy_aborts_on_first_failure.1 (failAt 2 "Throttled") "arn" "live" "2" "Throttled"
        [.tickerC] (fun _ => rfl) (fun _ => rfl) (fun _ => rfl)]
      rfl)
    (by decide) rfl

/-- C9: when the `select` takes the `ctx.Done()` case at some iteration, after any
number of ticks that left the loop running, `deploy` returns the error
"context cancelled" at once: the controller and the list of requests sent are those the
completed ticks left, so no request is sent in that iteration or later. -/
theorem deploy_cancelled (pre rest : List Select) (f f1 : function) (w w1 : World)
    (h : deploy pre f w = (.waiting, f1, w1)) :
    deploy (pre ++ .ctxDone :: rest) f w = (.returned (some "context cancelled"), f1, w1) := by
  rw [deploy_append pre _ f w f1 w1 h]
  rfl

/-- C9 with the cancellation seen after three completed ticks at step 0.1: the share is
the one the third tick left, `0x3FD3333333333334`, and three requests were sent. -/
theorem deploy_cancelled_witness :
    deploy ([.tickerC, .tickerC, .tickerC] ++ .ctxDone :: [.tickerC])
        ⟨okClient, "arn", "live", F64.zero, "2", F64.tenth⟩ ⟨[], []⟩ =
      (.returned (some "context cancelled"),
        ⟨okClient, "arn", "live", F64.ofBits 0x3FD3333333333334, "2", F64.tenth⟩,
        ⟨[F64.ofBits 0x3FB999999999999A, F64.ofBits 0x3FC999999999999A,
            F64.ofBits 0x3FD3333333333334].map
            (splitInput ⟨okClient, "arn", "live", F64.zero, "2", F64.tenth⟩),
          [F64.ofBits 0x3FB999999999999A, F64.ofBits 0x3FC999999999999A,
            F64.ofBits 0x3FD3333333333334]⟩) :=
  deploy_cancelled [.tickerC, .tickerC, .tickerC] [.tickerC]
    ⟨okClient, "arn", "live", F64.zero, "2", F64.tenth⟩ _ ⟨[], []⟩ _
    (by simp [deploy, adjustTrafficSplit, UpdateAlias, okClient, splitInput, zero_eq_ofBits,
          tenth_threshold, tenth_add_0, tenth_ge_0, tenth_add_1, tenth_ge_1, tenth_add_2,
          tenth_ge_2])

/-- C10 (the claim fails on the code): with `step = -0.1` and every request succeeding,
after ten ticks `currentNewVersionPct` is `0xBFEFFFFFFFFFFFFF` (-0.9999999999999999). That
is neither ten times the step exactly nor the `float64` nearest to ten times the step,
which is -1. -/
theorem deploy_negative_tenth_share_is_not_ten_steps :
    F64.le F64.negTenth F64.zero = true ∧
    deploy (List.replicate 10 .tickerC) ⟨okClient, "arn", "live", F64.zero, "2", F64.negTenth⟩
        ⟨[], []⟩ =
      (.waiting, ⟨okClient, "arn", "live", rampShare F64.negTenth 10, "2", F64.negTenth⟩,
        ⟨(rampList F64.negTenth 0 10).map
            (splitInput ⟨okClient, "arn", "live", F64.zero, "2", F64.negTenth⟩),
          rampList F64.negTenth 0 10⟩) ∧
    rampShare F64.negTenth 10 = F64.ofBits 0xBFEFFFFFFFFFFFFF ∧
    F64.toInt (F64.ofBits 0xBFEFFFFFFFFFFFFF) ≠ 10 * F64.toInt F64.negTenth ∧
    F64.ofMag true (10 * F64.mag F64.negTenth) = F64.ofBits 0xBFF0000000000000 ∧
    F64.ofBits 0xBFEFFFFFFFFFFFFF ≠ F64.ofBits 0xBFF0000000000000 :=
  ⟨by decide,
    deploy_ramp_waiting okClient "arn" "live" "2" F64.negTenth 10 (fun _ _ => rfl)
      (fun i _ => (nonpos_guard _ _ (rampShare_nonpos _ (by decide) i) (by decide)).1),
    negTenth_ramp_share, by decide, by decide, by decide⟩

/-- C10 (amended): for every step `<= 0`, a deploy loop started at
`currentNewVersionPct = 0` in which every request succeeds and no cancellation occurs
never reaches promotion. After `n` ticks the loop is still running,
`currentNewVersionPct` is the step added `n` times in `float64` arithmetic, it is
`<= 0` and below `1 - step`, which is at least 1; the `n` requests sent are all
partial-split requests, each with a fraction `<= 0`, and no cutover request is sent. -/
theorem deploy_nonpositive_step_never_promotes (client : Client)
    (arn aliasName target : String) (step : F64) (n : Nat)
    (hs : F64.le step F64.zero = true) (hc : ∀ i inp, client i inp = none) :
    deploy (List.replicate n .tickerC) ⟨client, arn, aliasName, F64.zero, target, step⟩ ⟨[], []⟩ =
      (.waiting, ⟨client, arn, aliasName, rampShare step n, target, step⟩,
        ⟨(rampList step 0 n).map (splitInput ⟨client, arn, aliasName, F64.zero, target, step⟩),
          rampList step 0 n⟩) ∧
    F64.le (rampShare step n) F64.zero = true ∧
    F64.lt (rampShare step n) (F64.sub F64.one step) = true ∧
    F64.le F64.one (F64.sub F64.one step) = true ∧
    (rampList step 0 n).length = n ∧
    ∀ x ∈ rampList step 0 n, F64.le x F64.zero = true := by
  refine ⟨deploy_ramp_waiting client arn aliasName target step n hc
      (fun i _ => (nonpos_guard _ _ (rampShare_nonpos _ hs i) hs).1),
    rampShare_nonpos _ hs n, (nonpos_guard _ _ (rampShare_nonpos _ hs n) hs).2,
    F64.one_le_sub_one step hs, length_rampList step n 0, fun x hx => ?_⟩
  obtain ⟨k, rfl⟩ := mem_rampList step n 0 x hx
  exact rampShare_nonpos _ hs k

/-- C10 (amended) at step -0.5 after two ticks. -/
theorem deploy_nonpositive_step_never_promotes_witness :
    deploy (List.replicate 2 .tickerC) ⟨okClient, "arn", "live", F64.zero, "2", F64.negHalf⟩
        ⟨[], []⟩ =
      (.waiting, ⟨okClient, "arn", "live", rampShare F64.negHalf 2, "2", F64.negHalf⟩,
        ⟨(rampList F64.negHalf 0 2).map
            (splitInput ⟨okClient, "arn", "live", F64.zero, "2", F64.negHalf⟩),
          rampList F64.negHalf 0 2⟩) ∧
    F64.le (rampShare F64.negHalf 2) F64.zero = true ∧
    F64.lt (rampShare F64.negHalf 2) (F64.sub F64.one F64.negHalf) = true ∧
    F64.le F64.one (F64.sub F64.one F64.negHalf) = true ∧
    (rampList F64.negHalf 0 2).length = 2 ∧
    ∀ x ∈ rampList F64.negHalf 0 2, F64.le x F64.zero = true :=
  deploy_nonpositive_step_never_promotes okClient "arn" "live" "2" F64.negHalf 2
    (by decide) (fun _ _ => rfl)

end Ald
